import Mathlib

set_option autoImplicit false
set_option maxHeartbeats 1000000

namespace SubsetDiffGo

/-- A dynamically typed Go value (an `interface` value), as produced by
unmarshalling Kubernetes manifests.  Go distinguishes the slice types
`[]interface` and `[]map[string]interface`, so both list shapes are separate
constructors (`arr` and `mapList`).  Scalars (strings, numbers, booleans) are
opaque atoms to the reducer; `null` is the nil interface value, which in Go is
both the value of an explicit JSON null and the result of looking up a missing
map key. -/
inductive GoVal where
  | null
  | str (s : String)
  | int (n : Int)
  | bool (b : Bool)
  | obj (entries : List (String × GoVal))
  | mapList (maps : List (List (String × GoVal)))
  | arr (elems : List GoVal)

/-- A Go `map[string]interface` value, embedded as an association list in a
fixed iteration order. -/
abbrev GoMap := List (String × GoVal)

/-- `m[k]` in Go: the first value stored at key `k`, or the nil interface
value when the key is absent. -/
def lookup (m : GoMap) (k : String) : GoVal :=
  match m with
  | [] => .null
  | (k', v) :: rest => if k' = k then v else lookup rest k

/-- `m[k] = v` in Go: replace the (first) entry at key `k` in place, or append
a new entry when the key is absent. -/
def setKey (m : GoMap) (k : String) (v : GoVal) : GoMap :=
  match m with
  | [] => [(k, v)]
  | (k', v') :: rest => if k' = k then (k, v) :: rest else (k', v') :: setKey rest k v

/-- Whether the map has an entry with key `k` (regardless of its value). -/
def containsKey (m : GoMap) (k : String) : Bool :=
  match m with
  | [] => false
  | (k', _) :: rest => k' = k || containsKey rest k

/-- Remove every entry with key `k`. -/
def eraseKey (m : GoMap) (k : String) : GoMap :=
  match m with
  | [] => []
  | (k', v) :: rest => if k' = k then eraseKey rest k else (k', v) :: eraseKey rest k

/-- Go's `v == nil` test on an interface value. -/
def isNull (v : GoVal) : Bool :=
  match v with
  | .null => true
  | _ => false

/-- Scalar (non-composite) values: nil, strings, numbers, booleans. -/
def isScalar (v : GoVal) : Bool :=
  match v with
  | .obj _ => false
  | .mapList _ => false
  | .arr _ => false
  | _ => true

mutual

/-- Nesting depth of a value (scalars have depth 0). -/
def dVal : GoVal → Nat
  | .null => 0
  | .str _ => 0
  | .int _ => 0
  | .bool _ => 0
  | .obj m => 1 + dEnts m
  | .mapList ls => 1 + dMaps ls
  | .arr vs => 1 + dVals vs

/-- Nesting depth of a map body: the maximum depth of its values. -/
def dEnts : List (String × GoVal) → Nat
  | [] => 0
  | (_, v) :: rest => max (dVal v) (dEnts rest)

/-- Nesting depth of a list of maps, counting each map as one level. -/
def dMaps : List (List (String × GoVal)) → Nat
  | [] => 0
  | m :: rest => max (1 + dEnts m) (dMaps rest)

/-- Nesting depth of a list of values. -/
def dVals : List GoVal → Nat
  | [] => 0
  | v :: rest => max (dVal v) (dVals rest)

end

@[simp] theorem dVal_null : dVal .null = 0 := rfl

@[simp] theorem dVal_str (s : String) : dVal (.str s) = 0 := rfl

@[simp] theorem dVal_int (n : Int) : dVal (.int n) = 0 := rfl

@[simp] theorem dVal_bool (b : Bool) : dVal (.bool b) = 0 := rfl

@[simp] theorem dVal_obj (m : List (String × GoVal)) : dVal (.obj m) = 1 + dEnts m := rfl

@[simp] theorem dVal_mapList (ls : List (List (String × GoVal))) :
    dVal (.mapList ls) = 1 + dMaps ls := rfl

@[simp] theorem dVal_arr (vs : List GoVal) : dVal (.arr vs) = 1 + dVals vs := rfl

@[simp] theorem dEnts_nil : dEnts [] = 0 := rfl

@[simp] theorem dEnts_cons (k : String) (v : GoVal) (r : List (String × GoVal)) :
    dEnts ((k, v) :: r) = max (dVal v) (dEnts r) := rfl

@[simp] theorem dMaps_nil : dMaps [] = 0 := rfl

@[simp] theorem dMaps_cons (m : List (String × GoVal)) (r : List (List (String × GoVal))) :
    dMaps (m :: r) = max (1 + dEnts m) (dMaps r) := rfl

@[simp] theorem dVals_nil : dVals [] = 0 := rfl

@[simp] theorem dVals_cons (v : GoVal) (r : List GoVal) :
    dVals (v :: r) = max (dVal v) (dVals r) := rfl

theorem dVal_lookup_le (m : GoMap) (k : String) : dVal (lookup m k) ≤ dEnts m := by
  induction m with
  | nil => simp [lookup]
  | cons p rest ih =>
    obtain ⟨k', v⟩ := p
    simp only [lookup, dEnts_cons]
    split
    · exact Nat.le_max_left _ _
    · exact le_trans ih (Nat.le_max_right _ _)

theorem dEnts_setKey_le (m : GoMap) (k : String) (v : GoVal) :
    dEnts (setKey m k v) ≤ max (dEnts m) (dVal v) := by
  induction m with
  | nil => simp [setKey]
  | cons p rest ih =>
    obtain ⟨k', v'⟩ := p
    simp only [setKey]
    split
    · simp only [dEnts_cons]; omega
    · simp only [dEnts_cons]; omega

/-- First injection at the top of Go's `subset(local, cluster)`:
`if local["namespace"] != nil, cluster["namespace"] = local["namespace"]`. -/
def prepNs (l c : GoMap) : GoMap :=
  if isNull (lookup l "namespace") then c else setKey c "namespace" (lookup l "namespace")

/-- The unconditional field injection performed at the top of Go's
`subset(local, cluster)` before the main loop: force `cluster["namespace"]`
to the desired namespace when the desired namespace is non-nil, and force
`cluster["apiVersion"]` to the desired apiVersion when both sides carry a
non-nil apiVersion. -/
def prep (l c : GoMap) : GoMap :=
  let c1 := prepNs l c
  if !isNull (lookup l "apiVersion") && !isNull (lookup c1 "apiVersion") then
    setKey c1 "apiVersion" (lookup l "apiVersion")
  else c1

theorem dEnts_prepNs_le (l c : GoMap) : dEnts (prepNs l c) ≤ max (dEnts l) (dEnts c) := by
  have hns := dVal_lookup_le l "namespace"
  unfold prepNs
  split
  · omega
  · have := dEnts_setKey_le c "namespace" (lookup l "namespace"); omega

theorem dEnts_prep_le (l c : GoMap) : dEnts (prep l c) ≤ max (dEnts l) (dEnts c) := by
  have hav := dVal_lookup_le l "apiVersion"
  have h1 := dEnts_prepNs_le l c
  unfold prep
  dsimp only
  split
  · have := dEnts_setKey_le (prepNs l c) "apiVersion" (lookup l "apiVersion")
    omega
  · exact h1

/-- Helper for the lexicographic termination measures below. -/
theorem lexHelp {a b c d : Nat} (h1 : a ≤ c) (h2 : a = c → b < d) :
    Prod.Lex (· < ·) (· < ·) (a, b) (c, d) := by
  rcases Nat.lt_or_eq_of_le h1 with h | h
  · exact Prod.Lex.left _ _ h
  · subst h; exact Prod.Lex.right _ (h2 rfl)

mutual

/-- The body of one iteration of the main loop of Go's `subset`, for an entry
`(k, v)` of the (prepared) cluster map that survived the `local[k] == nil`
deletion test: the `switch b := v.(type)` statement.  Returns `none` when the
Go code would panic (out-of-range indexing into the desired list in the
`[]map[string]interface` branch). -/
def subsetVal (l : GoMap) (k : String) (v : GoVal) : Option GoVal :=
  match v with
  | .obj b =>
    match h : lookup l k with
    | .obj a =>
      match subsetLoop a (prep a b) with
      | some m => some (.obj m)
      | none => none
    | _ => some (.obj b)
  | .mapList bs =>
    match h : lookup l k with
    | .mapList as2 =>
      match subsetMaps as2 bs with
      | some bs2 => some (.mapList bs2)
      | none => none
    | _ => some (.mapList bs)
  | .arr bs =>
    match h : lookup l k with
    | .arr as2 =>
      match subsetArr as2 bs with
      | some bs2 => some (.arr bs2)
      | none => none
    | _ => some (.arr bs)
  | v => some v
  termination_by ((max (dEnts l) (dVal v), 0) : Nat × Nat)
  decreasing_by
  · apply Prod.Lex.left
    rename_i b
    have ha := dVal_lookup_le l k
    rw [h] at ha
    have hp := dEnts_prep_le a b
    simp only [dVal_obj] at *
    omega
  · apply Prod.Lex.left
    have ha := dVal_lookup_le l k
    rw [h] at ha
    simp only [dVal_mapList] at *
    omega
  · apply Prod.Lex.left
    have ha := dVal_lookup_le l k
    rw [h] at ha
    simp only [dVal_arr] at *
    omega

/-- The main loop of Go's `subset`: `for k, v := range cluster`, deleting the
entries whose key has a nil value in `local` and reducing the others. -/
def subsetLoop (l : GoMap) (lst : GoMap) : Option GoMap :=
  match lst with
  | [] => some []
  | (k, v) :: rest =>
    if isNull (lookup l k) then subsetLoop l rest
    else
      match subsetVal l k v with
      | none => none
      | some v2 =>
        match subsetLoop l rest with
        | none => none
        | some rest2 => some ((k, v2) :: rest2)
  termination_by ((max (dEnts l) (dEnts lst), 1 + lst.length) : Nat × Nat)
  decreasing_by
  · apply lexHelp
    · simp only [dEnts_cons]; omega
    · intro _; simp only [List.length_cons]; omega
  · apply lexHelp
    · simp only [dEnts_cons]; omega
    · intro _; simp only [List.length_cons]; omega
  · apply lexHelp
    · simp only [dEnts_cons]; omega
    · intro _; simp only [List.length_cons]; omega

/-- The `case []map[string]interface` branch of Go's `subset`: element-wise
reduction `b[i] = subset(a[i], b[i])`, where indexing `a[i]` is unguarded —
`none` models the runtime panic when the desired list is shorter. -/
def subsetMaps (as2 : List GoMap) (bs : List GoMap) : Option (List GoMap) :=
  match as2, bs with
  | _, [] => some []
  | [], _ :: _ => none
  | a :: as2, b :: bs =>
    match subsetLoop a (prep a b) with
    | none => none
    | some b2 =>
      match subsetMaps as2 bs with
      | none => none
      | some bs2 => some (b2 :: bs2)
  termination_by ((max (dMaps as2) (dMaps bs), bs.length) : Nat × Nat)
  decreasing_by
  · apply Prod.Lex.left
    have := dEnts_prep_le a b
    simp only [dMaps_cons]
    omega
  · apply lexHelp
    · simp only [dMaps_cons]; omega
    · intro _; simp only [List.length_cons]; omega

/-- The `case []interface` branch of Go's `subset`: element-wise reduction
that stops (`break`) once the desired list is exhausted and skips (`continue`)
the positions where either side is not a nested map. -/
def subsetArr (as2 : List GoVal) (bs : List GoVal) : Option (List GoVal) :=
  match as2, bs with
  | _, [] => some []
  | [], b :: bs => some (b :: bs)
  | a :: as2, b :: bs =>
    match a, b with
    | .obj x, .obj y =>
      match subsetLoop x (prep x y) with
      | none => none
      | some m =>
        match subsetArr as2 bs with
        | none => none
        | some bs2 => some (.obj m :: bs2)
    | _, _ =>
      match subsetArr as2 bs with
      | none => none
      | some bs2 => some (b :: bs2)
  termination_by ((max (dVals as2) (dVals bs), bs.length) : Nat × Nat)
  decreasing_by
  · apply Prod.Lex.left
    have := dEnts_prep_le x y
    simp only [dVals_cons, dVal_obj]
    omega
  · apply lexHelp
    · simp only [dVals_cons]; omega
    · intro _; simp only [List.length_cons]; omega
  · apply lexHelp
    · simp only [dVals_cons]; omega
    · intro _; simp only [List.length_cons]; omega

end

/-- Go's `subset(local, cluster)` from `subsetdiff.go`: inject the
namespace/apiVersion fields, then run the reduction loop over the cluster
map.  `none` models a runtime panic (unguarded out-of-range indexing). -/
def subset (l c : GoMap) : Option GoMap :=
  subsetLoop l (prep l c)

theorem isNull_iff (v : GoVal) : isNull v = true ↔ v = .null := by
  cases v <;> simp [isNull]

theorem isNull_false_iff (v : GoVal) : isNull v = false ↔ v ≠ .null := by
  cases v <;> simp [isNull]

theorem lookup_of_not_contains {m : GoMap} {k : String} (h : containsKey m k = false) :
    lookup m k = .null := by
  induction m with
  | nil => rfl
  | cons p rest ih =>
    obtain ⟨k', v⟩ := p
    simp only [containsKey, Bool.or_eq_false_iff, decide_eq_false_iff_not] at h
    simp only [lookup, if_neg h.1]
    exact ih h.2

theorem contains_of_lookup_ne {m : GoMap} {k : String} (h : lookup m k ≠ .null) :
    containsKey m k = true := by
  by_contra hc
  simp only [Bool.not_eq_true] at hc
  exact h (lookup_of_not_contains hc)

@[simp] theorem lookup_setKey_self (m : GoMap) (k : String) (v : GoVal) :
    lookup (setKey m k v) k = v := by
  induction m with
  | nil => simp [setKey, lookup]
  | cons p rest ih =>
    obtain ⟨k', v'⟩ := p
    simp only [setKey]
    split
    · simp [lookup]
    · simp [lookup, *]

theorem lookup_setKey_other (m : GoMap) {k k' : String} (v : GoVal) (h : k' ≠ k) :
    lookup (setKey m k' v) k = lookup m k := by
  induction m with
  | nil => simp [setKey, lookup, h]
  | cons p rest ih =>
    obtain ⟨k'', v''⟩ := p
    simp only [setKey]
    split
    · next heq => subst heq; simp [lookup, h]
    · simp [lookup, ih]

@[simp] theorem containsKey_setKey_self (m : GoMap) (k : String) (v : GoVal) :
    containsKey (setKey m k v) k = true := by
  induction m with
  | nil => simp [setKey, containsKey]
  | cons p rest ih =>
    obtain ⟨k', v'⟩ := p
    simp only [setKey]
    split
    · simp [containsKey]
    · simp [containsKey, ih]

theorem containsKey_setKey_other (m : GoMap) {k k' : String} (v : GoVal) (h : k' ≠ k) :
    containsKey (setKey m k' v) k = containsKey m k := by
  induction m with
  | nil => simp [setKey, containsKey, h]
  | cons p rest ih =>
    obtain ⟨k'', v''⟩ := p
    simp only [setKey]
    split
    · next heq => subst heq; simp [containsKey, h]
    · simp [containsKey, ih]

theorem setKey_lookup_self {m : GoMap} {k : String} (h : containsKey m k = true) :
    setKey m k (lookup m k) = m := by
  induction m with
  | nil => simp [containsKey] at h
  | cons p rest ih =>
    obtain ⟨k', v'⟩ := p
    simp only [containsKey, Bool.or_eq_true, decide_eq_true_eq] at h
    by_cases hk : k' = k
    · subst hk
      simp [setKey, lookup]
    · simp only [lookup, if_neg hk, setKey, hk, if_false]
      rcases h with h | h
      · exact absurd h hk
      · rw [ih h]

theorem lookup_eraseKey_self (m : GoMap) (k : String) : lookup (eraseKey m k) k = .null := by
  induction m with
  | nil => rfl
  | cons p rest ih =>
    obtain ⟨k', v⟩ := p
    simp only [eraseKey]
    split
    · exact ih
    · next hne => simp [lookup, hne, ih]

theorem lookup_eraseKey_other (m : GoMap) {k k' : String} (h : k' ≠ k) :
    lookup (eraseKey m k') k = lookup m k := by
  induction m with
  | nil => rfl
  | cons p rest ih =>
    obtain ⟨k'', v⟩ := p
    simp only [eraseKey]
    split
    · next heq => simp [lookup, heq ▸ h, ih]
    · simp [lookup, ih]

theorem lookup_prepNs_other (l c : GoMap) {k : String} (h : k ≠ "namespace") :
    lookup (prepNs l c) k = lookup c k := by
  unfold prepNs
  split
  · rfl
  · exact lookup_setKey_other c _ (Ne.symm h)

theorem containsKey_prepNs_other (l c : GoMap) {k : String} (h : k ≠ "namespace") :
    containsKey (prepNs l c) k = containsKey c k := by
  unfold prepNs
  split
  · rfl
  · exact containsKey_setKey_other c _ (Ne.symm h)

theorem lookup_prep_other (l c : GoMap) {k : String} (h1 : k ≠ "namespace")
    (h2 : k ≠ "apiVersion") : lookup (prep l c) k = lookup c k := by
  unfold prep
  dsimp only
  split
  · rw [lookup_setKey_other _ _ (Ne.symm h2), lookup_prepNs_other l c h1]
  · exact lookup_prepNs_other l c h1

theorem containsKey_prep_other (l c : GoMap) {k : String} (h1 : k ≠ "namespace")
    (h2 : k ≠ "apiVersion") : containsKey (prep l c) k = containsKey c k := by
  unfold prep
  dsimp only
  split
  · rw [containsKey_setKey_other _ _ (Ne.symm h2), containsKey_prepNs_other l c h1]
  · exact containsKey_prepNs_other l c h1

theorem lookup_prepNs_api (l c : GoMap) :
    lookup (prepNs l c) "apiVersion" = lookup c "apiVersion" :=
  lookup_prepNs_other l c (by decide)

/-- The apiVersion condition of `prep` can be read off the original cluster
map, since the namespace injection cannot touch the "apiVersion" key. -/
theorem prep_eq (l c : GoMap) :
    prep l c =
      if !isNull (lookup l "apiVersion") && !isNull (lookup c "apiVersion") then
        setKey (prepNs l c) "apiVersion" (lookup l "apiVersion")
      else prepNs l c := by
  unfold prep
  dsimp only
  rw [lookup_prepNs_api]

@[simp] theorem subsetLoop_nil (l : GoMap) : subsetLoop l [] = some [] := by
  rw [subsetLoop]

theorem subsetLoop_cons (l : GoMap) (k : String) (v : GoVal) (rest : GoMap) :
    subsetLoop l ((k, v) :: rest) =
      if isNull (lookup l k) then subsetLoop l rest
      else
        match subsetVal l k v with
        | none => none
        | some v2 =>
          match subsetLoop l rest with
          | none => none
          | some rest2 => some ((k, v2) :: rest2) := by
  rw [subsetLoop]

@[simp] theorem subsetVal_null (l : GoMap) (k : String) :
    subsetVal l k .null = some .null := by
  rw [subsetVal] <;> simp

@[simp] theorem subsetVal_str (l : GoMap) (k : String) (s : String) :
    subsetVal l k (.str s) = some (.str s) := by
  rw [subsetVal] <;> simp

@[simp] theorem subsetVal_int (l : GoMap) (k : String) (n : Int) :
    subsetVal l k (.int n) = some (.int n) := by
  rw [subsetVal] <;> simp

@[simp] theorem subsetVal_bool (l : GoMap) (k : String) (b : Bool) :
    subsetVal l k (.bool b) = some (.bool b) := by
  rw [subsetVal] <;> simp

/-- Discriminates nested-map values (Go type assertion to `map[string]interface`). -/
def isObjV (v : GoVal) : Bool :=
  match v with
  | .obj _ => true
  | _ => false

theorem isObjV_false_iff (v : GoVal) : isObjV v = false ↔ ∀ m, v ≠ .obj m := by
  cases v <;> simp [isObjV]

theorem subsetVal_obj_obj {l : GoMap} {k : String} {a : GoMap} (b : GoMap)
    (hl : lookup l k = .obj a) :
    subsetVal l k (.obj b) =
      match subsetLoop a (prep a b) with
      | some m => some (.obj m)
      | none => none := by
  rw [subsetVal]
  split
  · rename_i a' h
    rw [hl] at h
    cases h
    rfl
  · rename_i hne
    exact absurd hl (fun hh => hne a hh)

theorem subsetVal_obj_not {l : GoMap} {k : String} (b : GoMap)
    (hl : ∀ a, lookup l k ≠ .obj a) :
    subsetVal l k (.obj b) = some (.obj b) := by
  rw [subsetVal]
  split
  · rename_i a' h
    exact absurd h (hl a')
  · rfl

theorem subsetVal_mapList_mapList {l : GoMap} {k : String} {as2 : List GoMap}
    (bs : List GoMap) (hl : lookup l k = .mapList as2) :
    subsetVal l k (.mapList bs) =
      match subsetMaps as2 bs with
      | some bs2 => some (.mapList bs2)
      | none => none := by
  rw [subsetVal]
  split
  · rename_i a' h
    rw [hl] at h
    cases h
    rfl
  · rename_i hne
    exact absurd hl (fun hh => hne as2 hh)

theorem subsetVal_mapList_not {l : GoMap} {k : String} (bs : List GoMap)
    (hl : ∀ as2, lookup l k ≠ .mapList as2) :
    subsetVal l k (.mapList bs) = some (.mapList bs) := by
  rw [subsetVal]
  split
  · rename_i a' h
    exact absurd h (hl a')
  · rfl

theorem subsetVal_arr_arr {l : GoMap} {k : String} {as2 : List GoVal}
    (bs : List GoVal) (hl : lookup l k = .arr as2) :
    subsetVal l k (.arr bs) =
      match subsetArr as2 bs with
      | some bs2 => some (.arr bs2)
      | none => none := by
  rw [subsetVal]
  split
  · rename_i a' h
    rw [hl] at h
    cases h
    rfl
  · rename_i hne
    exact absurd hl (fun hh => hne as2 hh)

theorem subsetVal_arr_not {l : GoMap} {k : String} (bs : List GoVal)
    (hl : ∀ as2, lookup l k ≠ .arr as2) :
    subsetVal l k (.arr bs) = some (.arr bs) := by
  rw [subsetVal]
  split
  · rename_i a' h
    exact absurd h (hl a')
  · rfl

theorem subsetMaps_cons (a : GoMap) (as2 : List GoMap) (b : GoMap) (bs : List GoMap) :
    subsetMaps (a :: as2) (b :: bs) =
      match subsetLoop a (prep a b) with
      | none => none
      | some b2 =>
        match subsetMaps as2 bs with
        | none => none
        | some bs2 => some (b2 :: bs2) := by
  rw [subsetMaps]

@[simp] theorem subsetMaps_nil_right (as2 : List GoMap) : subsetMaps as2 [] = some [] := by
  rw [subsetMaps]

@[simp] theorem subsetMaps_nil_left (b : GoMap) (bs : List GoMap) :
    subsetMaps [] (b :: bs) = none := by
  rw [subsetMaps]

@[simp] theorem subsetArr_nil_right (as2 : List GoVal) : subsetArr as2 [] = some [] := by
  rw [subsetArr]

@[simp] theorem subsetArr_nil_left (b : GoVal) (bs : List GoVal) :
    subsetArr [] (b :: bs) = some (b :: bs) := by
  rw [subsetArr]

theorem subsetArr_cons (a : GoVal) (as2 : List GoVal) (b : GoVal) (bs : List GoVal) :
    subsetArr (a :: as2) (b :: bs) =
      match a, b with
      | .obj x, .obj y =>
        (match subsetLoop x (prep x y) with
          | none => none
          | some m =>
            match subsetArr as2 bs with
            | none => none
            | some bs2 => some (.obj m :: bs2))
      | _, _ =>
        (match subsetArr as2 bs with
          | none => none
          | some bs2 => some (b :: bs2)) := by
  cases a <;> cases b <;> rw [subsetArr] <;> simp

/-- Inversion for one step of the reduction loop. -/
theorem subsetLoop_cons_inv {l : GoMap} {k : String} {v : GoVal} {rest r : GoMap}
    (h : subsetLoop l ((k, v) :: rest) = some r) :
    (isNull (lookup l k) = true ∧ subsetLoop l rest = some r) ∨
    (isNull (lookup l k) = false ∧
      ∃ v2 rest2, subsetVal l k v = some v2 ∧ subsetLoop l rest = some rest2 ∧
        r = (k, v2) :: rest2) := by
  rw [subsetLoop_cons] at h
  by_cases hn : isNull (lookup l k) = true
  · rw [if_pos hn] at h
    exact Or.inl ⟨hn, h⟩
  · rw [if_neg hn] at h
    refine Or.inr ⟨by simpa using hn, ?_⟩
    rcases hv : subsetVal l k v with _ | v2
    · rw [hv] at h; exact absurd h (by simp)
    · rw [hv] at h
      rcases hr : subsetLoop l rest with _ | rest2
      · rw [hr] at h; exact absurd h (by simp)
      · rw [hr] at h
        exact ⟨v2, rest2, rfl, rfl, by simpa using h.symm⟩

/-- A reduced value is nil only if the input value was nil. -/
theorem subsetVal_ne_null {l : GoMap} {k : String} {v v' : GoVal}
    (h : subsetVal l k v = some v') (hv : v ≠ .null) : v' ≠ .null := by
  cases v with
  | null => exact absurd rfl hv
  | str s => rw [subsetVal_str] at h; cases h; simp
  | int n => rw [subsetVal_int] at h; cases h; simp
  | bool b => rw [subsetVal_bool] at h; cases h; simp
  | obj b =>
    by_cases ho : ∃ a, lookup l k = .obj a
    · obtain ⟨a, hl⟩ := ho
      rw [subsetVal_obj_obj b hl] at h
      rcases hs : subsetLoop a (prep a b) with _ | m <;> rw [hs] at h
      · cases h
      · cases h; simp
    · push_neg at ho
      rw [subsetVal_obj_not b ho] at h
      cases h; simp
  | mapList bs =>
    by_cases ho : ∃ as2, lookup l k = .mapList as2
    · obtain ⟨as2, hl⟩ := ho
      rw [subsetVal_mapList_mapList bs hl] at h
      rcases hs : subsetMaps as2 bs with _ | bs2 <;> rw [hs] at h
      · cases h
      · cases h; simp
    · push_neg at ho
      rw [subsetVal_mapList_not bs ho] at h
      cases h; simp
  | arr bs =>
    by_cases ho : ∃ as2, lookup l k = .arr as2
    · obtain ⟨as2, hl⟩ := ho
      rw [subsetVal_arr_arr bs hl] at h
      rcases hs : subsetArr as2 bs with _ | bs2 <;> rw [hs] at h
      · cases h
      · cases h; simp
    · push_neg at ho
      rw [subsetVal_arr_not bs ho] at h
      cases h; simp

theorem lookup_cons (k' : String) (v : GoVal) (rest : GoMap) (k : String) :
    lookup ((k', v) :: rest) k = if k' = k then v else lookup rest k := rfl

theorem containsKey_cons (k' : String) (v : GoVal) (rest : GoMap) (k : String) :
    containsKey ((k', v) :: rest) k = (decide (k' = k) || containsKey rest k) := rfl

theorem setKey_cons (k' : String) (v' : GoVal) (rest : GoMap) (k : String) (v : GoVal) :
    setKey ((k', v') :: rest) k v =
      if k' = k then (k, v) :: rest else (k', v') :: setKey rest k v := rfl

/-- Keys whose desired value is nil are completely absent from the loop
output. -/
theorem subsetLoop_contains_null {l : GoMap} {k : String} (hk : lookup l k = .null) :
    ∀ {lst r : GoMap}, subsetLoop l lst = some r → containsKey r k = false := by
  intro lst
  induction lst with
  | nil => intro r h; rw [subsetLoop_nil] at h; cases h; rfl
  | cons p rest ih =>
    obtain ⟨k', v⟩ := p
    intro r h
    rcases subsetLoop_cons_inv h with ⟨_, h2⟩ | ⟨hn, v2, rest2, _, h2, hr⟩
    · exact ih h2
    · subst hr
      have hkk : k' ≠ k := by
        intro he
        subst he
        rw [hk] at hn
        simp [isNull] at hn
      simp [containsKey, hkk, ih h2]

/-- The loop never invents keys: output keys come from the input map. -/
theorem subsetLoop_contains_false {l : GoMap} {k : String} :
    ∀ {lst r : GoMap}, subsetLoop l lst = some r → containsKey lst k = false →
      containsKey r k = false := by
  intro lst
  induction lst with
  | nil => intro r h _; rw [subsetLoop_nil] at h; cases h; rfl
  | cons p rest ih =>
    obtain ⟨k', v⟩ := p
    intro r h hc
    simp only [containsKey, Bool.or_eq_false_iff, decide_eq_false_iff_not] at hc
    rcases subsetLoop_cons_inv h with ⟨_, h2⟩ | ⟨hn, v2, rest2, _, h2, hr⟩
    · exact ih h2 hc.2
    · subst hr
      simp [containsKey, hc.1, ih h2 hc.2]

/-- A key whose value is nil in the loop input keeps a nil value in the loop
output. -/
theorem subsetLoop_lookup_null {l : GoMap} {k : String} :
    ∀ lst r : GoMap, subsetLoop l lst = some r → lookup lst k = .null →
      lookup r k = .null := by
  by_cases hlk : lookup l k = .null
  · intro lst r h _
    exact lookup_of_not_contains (subsetLoop_contains_null hlk h)
  · intro lst
    induction lst with
    | nil => intro r h _; rw [subsetLoop_nil] at h; cases h; rfl
    | cons p rest ih =>
      obtain ⟨k', v⟩ := p
      intro r h hv
      rcases subsetLoop_cons_inv h with ⟨hn, h2⟩ | ⟨hn, v2, rest2, hval, h2, hr⟩
      · by_cases hkk : k' = k
        · subst hkk
          rw [isNull_iff] at hn
          exact absurd hn hlk
        · rw [lookup_cons, if_neg hkk] at hv
          exact ih r h2 hv
      · subst hr
        by_cases hkk : k' = k
        · subst hkk
          rw [lookup_cons, if_pos rfl] at hv
          subst hv
          rw [subsetVal_null] at hval
          cases hval
          rw [lookup_cons, if_pos rfl]
        · rw [lookup_cons, if_neg hkk] at hv
          rw [lookup_cons, if_neg hkk]
          exact ih rest2 h2 hv

/-- Transport of a surviving key through the reduction loop: the output value
at `k` is the reduced input value at `k`. -/
theorem subsetLoop_lookup {l : GoMap} {k : String} (hk : isNull (lookup l k) = false) :
    ∀ {lst r : GoMap}, subsetLoop l lst = some r → containsKey lst k = true →
      containsKey r k = true ∧ subsetVal l k (lookup lst k) = some (lookup r k) := by
  intro lst
  induction lst with
  | nil => intro r h hc; simp [containsKey] at hc
  | cons p rest ih =>
    obtain ⟨k', v⟩ := p
    intro r h hc
    rcases subsetLoop_cons_inv h with ⟨hn, h2⟩ | ⟨hn, v2, rest2, hval, h2, hr⟩
    · by_cases hkk : k' = k
      · subst hkk
        rw [hn] at hk
        cases hk
      · simp only [containsKey, Bool.or_eq_true, decide_eq_true_eq] at hc
        rcases hc with hc | hc
        · exact absurd hc hkk
        · simp only [lookup, if_neg hkk]
          exact ih h2 hc
    · subst hr
      by_cases hkk : k' = k
      · subst hkk
        rw [lookup_cons, if_pos rfl, lookup_cons, if_pos rfl, containsKey_cons]
        exact ⟨by simp, by rw [hval]⟩
      · simp only [containsKey, Bool.or_eq_true, decide_eq_true_eq] at hc
        rcases hc with hc | hc
        · exact absurd hc hkk
        · rw [lookup_cons, if_neg hkk, lookup_cons, if_neg hkk, containsKey_cons]
          obtain ⟨ih1, ih2⟩ := ih h2 hc
          exact ⟨by simp [ih1], ih2⟩

/-- A map each of whose entries is already fully reduced is a fixed point of
the reduction loop. -/
theorem subsetLoop_of_reduced {l : GoMap} :
    ∀ {r : GoMap},
      (∀ p ∈ r, isNull (lookup l p.1) = false ∧ subsetVal l p.1 p.2 = some p.2) →
      subsetLoop l r = some r := by
  intro r
  induction r with
  | nil => intro _; exact subsetLoop_nil l
  | cons p rest ih =>
    obtain ⟨k, v⟩ := p
    intro hred
    obtain ⟨h1, h2⟩ := hred (k, v) (by simp)
    rw [subsetLoop_cons, if_neg (by simp [h1]), h2,
      ih (fun q hq => hred q (by simp [hq]))]

/-- Updating one surviving key of the loop input updates exactly that key of
the loop output with its reduced value. -/
theorem subsetLoop_setKey {l : GoMap} {k0 : String} {v0 w0 : GoVal}
    (hk : isNull (lookup l k0) = false) (hv : subsetVal l k0 v0 = some w0) :
    ∀ {lst r : GoMap}, subsetLoop l lst = some r → containsKey lst k0 = true →
      subsetLoop l (setKey lst k0 v0) = some (setKey r k0 w0) := by
  intro lst
  induction lst with
  | nil => intro r _ hc; simp [containsKey] at hc
  | cons p rest ih =>
    obtain ⟨k', v⟩ := p
    intro r h hc
    rcases subsetLoop_cons_inv h with ⟨hn, h2⟩ | ⟨hn, v2, rest2, hval, h2, hr⟩
    · by_cases hkk : k' = k0
      · subst hkk
        rw [hn] at hk
        cases hk
      · simp only [containsKey, Bool.or_eq_true, decide_eq_true_eq] at hc
        rcases hc with hc | hc
        · exact absurd hc hkk
        · rw [setKey_cons, if_neg hkk, subsetLoop_cons, if_pos hn]
          exact ih h2 hc
    · subst hr
      by_cases hkk : k' = k0
      · subst hkk
        rw [setKey_cons, if_pos rfl, setKey_cons, if_pos rfl,
          subsetLoop_cons, if_neg (by simp [hk]), hv, h2]
      · simp only [containsKey, Bool.or_eq_true, decide_eq_true_eq] at hc
        rcases hc with hc | hc
        · exact absurd hc hkk
        · rw [setKey_cons, if_neg hkk, setKey_cons, if_neg hkk,
            subsetLoop_cons, if_neg (by simp [hn]), hval, ih h2 hc]

/-- `subsetVal` depends on the desired map only through `lookup`. -/
theorem subsetVal_ext {l l2 : GoMap} (hL : ∀ k', lookup l k' = lookup l2 k')
    (k : String) (v : GoVal) : subsetVal l k v = subsetVal l2 k v := by
  cases v with
  | null => rw [subsetVal_null, subsetVal_null]
  | str s => rw [subsetVal_str, subsetVal_str]
  | int n => rw [subsetVal_int, subsetVal_int]
  | bool b => rw [subsetVal_bool, subsetVal_bool]
  | obj b =>
    by_cases ho : ∃ a, lookup l k = .obj a
    · obtain ⟨a, hl⟩ := ho
      rw [subsetVal_obj_obj b hl, subsetVal_obj_obj b ((hL k).symm.trans hl)]
    · push_neg at ho
      rw [subsetVal_obj_not b ho, subsetVal_obj_not b (fun a => (hL k) ▸ ho a)]
  | mapList bs =>
    by_cases ho : ∃ as2, lookup l k = .mapList as2
    · obtain ⟨as2, hl⟩ := ho
      rw [subsetVal_mapList_mapList bs hl, subsetVal_mapList_mapList bs ((hL k).symm.trans hl)]
    · push_neg at ho
      rw [subsetVal_mapList_not bs ho, subsetVal_mapList_not bs (fun a => (hL k) ▸ ho a)]
  | arr bs =>
    by_cases ho : ∃ as2, lookup l k = .arr as2
    · obtain ⟨as2, hl⟩ := ho
      rw [subsetVal_arr_arr bs hl, subsetVal_arr_arr bs ((hL k).symm.trans hl)]
    · push_neg at ho
      rw [subsetVal_arr_not bs ho, subsetVal_arr_not bs (fun a => (hL k) ▸ ho a)]

/-- The reduction loop depends on the desired map only through `lookup`. -/
theorem subsetLoop_ext {l l2 : GoMap} (hL : ∀ k', lookup l k' = lookup l2 k') :
    ∀ lst : GoMap, subsetLoop l lst = subsetLoop l2 lst := by
  intro lst
  induction lst with
  | nil => rw [subsetLoop_nil, subsetLoop_nil]
  | cons p rest ih =>
    obtain ⟨k, v⟩ := p
    rw [subsetLoop_cons, subsetLoop_cons, ← hL k, subsetVal_ext hL k v, ih]

/-- The field injection depends on the desired map only through `lookup`. -/
theorem prep_ext {l l2 : GoMap} (hL : ∀ k', lookup l k' = lookup l2 k') (c : GoMap) :
    prep l c = prep l2 c := by
  have hns : prepNs l c = prepNs l2 c := by
    unfold prepNs
    rw [hL "namespace"]
  rw [prep_eq, prep_eq, hL "apiVersion", hns]

/-- `subset` depends on the desired map only through `lookup`. -/
theorem subset_ext {l l2 : GoMap} (hL : ∀ k', lookup l k' = lookup l2 k') (c : GoMap) :
    subset l c = subset l2 c := by
  unfold subset
  rw [prep_ext hL c, subsetLoop_ext hL]

mutual

/-- The key-subset invariant claimed by the spec for the reduced tree: every
key of the reduced map is present in the desired map or is one of the two
injected fields, and wherever both sides are composite values of the same
shape, the invariant holds recursively. -/
def objOk (l : GoMap) (r : GoMap) : Bool :=
  match r with
  | [] => true
  | (k, v) :: rest =>
    (containsKey l k || decide (k = "namespace") || decide (k = "apiVersion")) &&
      corrOk (lookup l k) v && objOk l rest

/-- The invariant relating a desired value and the reduced value stored under
the same key. -/
def corrOk (lv : GoVal) (rv : GoVal) : Bool :=
  match lv, rv with
  | .obj a, .obj b => objOk a b
  | .mapList as2, .mapList bs => mapsOk as2 bs
  | .arr as2, .arr bs => arrOk as2 bs
  | _, _ => true

/-- Element-wise invariant for lists of maps (up to the shorter length). -/
def mapsOk (as2 : List GoMap) (bs : List GoMap) : Bool :=
  match as2, bs with
  | _, [] => true
  | [], _ :: _ => true
  | a :: as2, b :: bs => objOk a b && mapsOk as2 bs

/-- Element-wise invariant for heterogeneous lists (only positions where both
sides are maps are constrained). -/
def arrOk (as2 : List GoVal) (bs : List GoVal) : Bool :=
  match as2, bs with
  | _, [] => true
  | [], _ :: _ => true
  | a :: as2, b :: bs =>
    (match a, b with
      | .obj x, .obj y => objOk x y
      | _, _ => true) && arrOk as2 bs

end

theorem objOk_nil (l : GoMap) : objOk l [] = true := by rw [objOk]

theorem objOk_cons (l : GoMap) (k : String) (v : GoVal) (rest : GoMap) :
    objOk l ((k, v) :: rest) =
      ((containsKey l k || decide (k = "namespace") || decide (k = "apiVersion")) &&
        corrOk (lookup l k) v && objOk l rest) := by
  rw [objOk]

theorem corrOk_obj_obj (a b : GoMap) : corrOk (.obj a) (.obj b) = objOk a b := by
  rw [corrOk]

theorem corrOk_mapList_mapList (as2 bs : List GoMap) :
    corrOk (.mapList as2) (.mapList bs) = mapsOk as2 bs := by
  rw [corrOk]

theorem corrOk_arr_arr (as2 bs : List GoVal) :
    corrOk (.arr as2) (.arr bs) = arrOk as2 bs := by
  rw [corrOk]

theorem corrOk_scalar (lv v : GoVal) (hv : isScalar v = true) : corrOk lv v = true := by
  cases v <;> simp [isScalar] at hv ⊢ <;> cases lv <;> rw [corrOk] <;> simp

theorem corrOk_obj_not (lv : GoVal) (b : GoMap) (h : ∀ a, lv ≠ .obj a) :
    corrOk lv (.obj b) = true := by
  cases lv <;> first | (exact absurd rfl (h _)) | (rw [corrOk] <;> simp)

theorem corrOk_mapList_not (lv : GoVal) (bs : List GoMap) (h : ∀ as2, lv ≠ .mapList as2) :
    corrOk lv (.mapList bs) = true := by
  cases lv <;> first | (exact absurd rfl (h _)) | (rw [corrOk] <;> simp)

theorem corrOk_arr_not (lv : GoVal) (bs : List GoVal) (h : ∀ as2, lv ≠ .arr as2) :
    corrOk lv (.arr bs) = true := by
  cases lv <;> first | (exact absurd rfl (h _)) | (rw [corrOk] <;> simp)

theorem mapsOk_nil (as2 : List GoMap) : mapsOk as2 [] = true := by
  rw [mapsOk] <;> simp

theorem mapsOk_cons (a : GoMap) (as2 : List GoMap) (b : GoMap) (bs : List GoMap) :
    mapsOk (a :: as2) (b :: bs) = (objOk a b && mapsOk as2 bs) := by
  rw [mapsOk]

theorem arrOk_nil (as2 : List GoVal) : arrOk as2 [] = true := by
  rw [arrOk] <;> simp

theorem arrOk_nil_left (b : GoVal) (bs : List GoVal) : arrOk [] (b :: bs) = true := by
  rw [arrOk]

theorem arrOk_cons (a : GoVal) (as2 : List GoVal) (b : GoVal) (bs : List GoVal) :
    arrOk (a :: as2) (b :: bs) =
      ((match a, b with
        | .obj x, .obj y => objOk x y
        | _, _ => true) && arrOk as2 bs) := by
  cases a <;> cases b <;> rw [arrOk] <;> simp

theorem subsetMaps_cons_inv {a : GoMap} {as2 : List GoMap} {b : GoMap} {bs : List GoMap}
    {r : List GoMap} (h : subsetMaps (a :: as2) (b :: bs) = some r) :
    ∃ b2 bs2, subsetLoop a (prep a b) = some b2 ∧ subsetMaps as2 bs = some bs2 ∧
      r = b2 :: bs2 := by
  rw [subsetMaps_cons] at h
  rcases h1 : subsetLoop a (prep a b) with _ | b2 <;> rw [h1] at h
  · cases h
  · rcases h2 : subsetMaps as2 bs with _ | bs2 <;> rw [h2] at h
    · cases h
    · cases h
      exact ⟨b2, bs2, rfl, rfl, rfl⟩

theorem subsetArr_cons_inv_objs {x y : GoMap} {as2 bs : List GoVal} {r : List GoVal}
    (h : subsetArr (.obj x :: as2) (.obj y :: bs) = some r) :
    ∃ m bs2, subsetLoop x (prep x y) = some m ∧ subsetArr as2 bs = some bs2 ∧
      r = .obj m :: bs2 := by
  rw [subsetArr_cons] at h
  dsimp only at h
  rcases h1 : subsetLoop x (prep x y) with _ | m <;> rw [h1] at h
  · cases h
  · rcases h2 : subsetArr as2 bs with _ | bs2 <;> rw [h2] at h
    · cases h
    · cases h
      exact ⟨m, bs2, rfl, rfl, rfl⟩

theorem subsetArr_cons_inv_other {a b : GoVal} {as2 bs : List GoVal} {r : List GoVal}
    (hnot : ∀ x y, ¬(a = .obj x ∧ b = .obj y))
    (h : subsetArr (a :: as2) (b :: bs) = some r) :
    ∃ bs2, subsetArr as2 bs = some bs2 ∧ r = b :: bs2 := by
  rw [subsetArr_cons] at h
  have hm : (match a, b with
      | GoVal.obj x, GoVal.obj y =>
        (match subsetLoop x (prep x y) with
          | none => none
          | some m =>
            match subsetArr as2 bs with
            | none => none
            | some bs2 => some (GoVal.obj m :: bs2))
      | _, _ =>
        (match subsetArr as2 bs with
          | none => none
          | some bs2 => some (b :: bs2))) =
      (match subsetArr as2 bs with
        | none => none
        | some bs2 => some (b :: bs2)) := by
    cases a <;> cases b <;> first | rfl | (exact absurd ⟨rfl, rfl⟩ (hnot _ _))
  rw [hm] at h
  rcases h2 : subsetArr as2 bs with _ | bs2 <;> rw [h2] at h
  · cases h
  · cases h
    exact ⟨bs2, rfl, rfl⟩

/-- Strong induction on the nesting depth establishing the key-subset
invariant for every level of the reduction. -/
theorem keysInvariantMain : ∀ n : Nat,
    (∀ l k v v', max (dEnts l) (dVal v) ≤ n → subsetVal l k v = some v' →
      corrOk (lookup l k) v' = true) ∧
    (∀ as2 bs bs', max (dMaps as2) (dMaps bs) ≤ n → subsetMaps as2 bs = some bs' →
      mapsOk as2 bs' = true) ∧
    (∀ as2 bs bs', max (dVals as2) (dVals bs) ≤ n → subsetArr as2 bs = some bs' →
      arrOk as2 bs' = true) ∧
    (∀ l lst r, max (dEnts l) (dEnts lst) ≤ n → subsetLoop l lst = some r →
      objOk l r = true) := by
  intro n
  induction n using Nat.strong_induction_on with
  | _ n IH =>
    have hPV : ∀ l k v v', max (dEnts l) (dVal v) ≤ n → subsetVal l k v = some v' →
        corrOk (lookup l k) v' = true := by
      intro l k v v' hb h
      cases v with
      | null => rw [subsetVal_null] at h; cases h; exact corrOk_scalar _ _ rfl
      | str s => rw [subsetVal_str] at h; cases h; exact corrOk_scalar _ _ rfl
      | int n2 => rw [subsetVal_int] at h; cases h; exact corrOk_scalar _ _ rfl
      | bool b2 => rw [subsetVal_bool] at h; cases h; exact corrOk_scalar _ _ rfl
      | obj b =>
        by_cases ho : ∃ a, lookup l k = .obj a
        · obtain ⟨a, hl⟩ := ho
          rw [subsetVal_obj_obj b hl] at h
          rcases hs : subsetLoop a (prep a b) with _ | m <;> rw [hs] at h
          · cases h
          · cases h
            rw [hl, corrOk_obj_obj]
            have ha := dVal_lookup_le l k
            rw [hl] at ha
            have hp := dEnts_prep_le a b
            have hlt : max (dEnts a) (dEnts (prep a b)) < n := by
              simp only [dVal_obj] at *
              omega
            exact (IH _ hlt).2.2.2 a (prep a b) m (le_refl _) hs
        · push_neg at ho
          rw [subsetVal_obj_not b ho] at h
          cases h
          exact corrOk_obj_not _ b ho
      | mapList bs =>
        by_cases ho : ∃ as2, lookup l k = .mapList as2
        · obtain ⟨as2, hl⟩ := ho
          rw [subsetVal_mapList_mapList bs hl] at h
          rcases hs : subsetMaps as2 bs with _ | bs2 <;> rw [hs] at h
          · cases h
          · cases h
            rw [hl, corrOk_mapList_mapList]
            have ha := dVal_lookup_le l k
            rw [hl] at ha
            have hlt : max (dMaps as2) (dMaps bs) < n := by
              simp only [dVal_mapList] at *
              omega
            exact (IH _ hlt).2.1 as2 bs bs2 (le_refl _) hs
        · push_neg at ho
          rw [subsetVal_mapList_not bs ho] at h
          cases h
          exact corrOk_mapList_not _ bs ho
      | arr bs =>
        by_cases ho : ∃ as2, lookup l k = .arr as2
        · obtain ⟨as2, hl⟩ := ho
          rw [subsetVal_arr_arr bs hl] at h
          rcases hs : subsetArr as2 bs with _ | bs2 <;> rw [hs] at h
          · cases h
          · cases h
            rw [hl, corrOk_arr_arr]
            have ha := dVal_lookup_le l k
            rw [hl] at ha
            have hlt : max (dVals as2) (dVals bs) < n := by
              simp only [dVal_arr] at *
              omega
            exact (IH _ hlt).2.2.1 as2 bs bs2 (le_refl _) hs
        · push_neg at ho
          rw [subsetVal_arr_not bs ho] at h
          cases h
          exact corrOk_arr_not _ bs ho
    have hPM : ∀ as2 bs bs', max (dMaps as2) (dMaps bs) ≤ n → subsetMaps as2 bs = some bs' →
        mapsOk as2 bs' = true := by
      intro as2 bs
      induction bs generalizing as2 with
      | nil =>
        intro bs' _ h
        rw [subsetMaps_nil_right] at h
        cases h
        exact mapsOk_nil as2
      | cons b bs ihb =>
        intro bs' hb h
        cases as2 with
        | nil => rw [subsetMaps_nil_left] at h; cases h
        | cons a as2 =>
          obtain ⟨b2, bs2, h1, h2, hr⟩ := subsetMaps_cons_inv h
          subst hr
          rw [mapsOk_cons]
          have hp := dEnts_prep_le a b
          have hlt : max (dEnts a) (dEnts (prep a b)) < n := by
            simp only [dMaps_cons] at hb
            omega
          have hobj := (IH _ hlt).2.2.2 a (prep a b) b2 (le_refl _) h1
          have hrest : mapsOk as2 bs2 = true := by
            apply ihb as2 bs2 _ h2
            simp only [dMaps_cons] at hb
            omega
          rw [hobj, hrest]
          rfl
    have hPA : ∀ as2 bs bs', max (dVals as2) (dVals bs) ≤ n → subsetArr as2 bs = some bs' →
        arrOk as2 bs' = true := by
      intro as2 bs
      induction bs generalizing as2 with
      | nil =>
        intro bs' _ h
        rw [subsetArr_nil_right] at h
        cases h
        exact arrOk_nil as2
      | cons b bs ihb =>
        intro bs' hb h
        cases as2 with
        | nil =>
          rw [subsetArr_nil_left] at h
          cases h
          exact arrOk_nil_left b bs
        | cons a as2 =>
          by_cases hob : ∃ x y, a = GoVal.obj x ∧ b = GoVal.obj y
          · obtain ⟨x, y, hx, hy⟩ := hob
            subst hx
            subst hy
            obtain ⟨m, bs2, h1, h2, hr⟩ := subsetArr_cons_inv_objs h
            subst hr
            rw [arrOk_cons]
            have hp := dEnts_prep_le x y
            have hlt : max (dEnts x) (dEnts (prep x y)) < n := by
              simp only [dVals_cons, dVal_obj] at hb
              omega
            have hobj := (IH _ hlt).2.2.2 x (prep x y) m (le_refl _) h1
            have hrest : arrOk as2 bs2 = true := by
              apply ihb as2 bs2 _ h2
              simp only [dVals_cons] at hb
              omega
            rw [hrest]
            simp [hobj]
          · have hnot : ∀ x y, ¬(a = GoVal.obj x ∧ b = GoVal.obj y) := by
              intro x y hxy
              exact hob ⟨x, y, hxy⟩
            obtain ⟨bs2, h2, hr⟩ := subsetArr_cons_inv_other hnot h
            subst hr
            rw [arrOk_cons]
            have hrest : arrOk as2 bs2 = true := by
              apply ihb as2 bs2 _ h2
              simp only [dVals_cons] at hb
              omega
            rw [hrest]
            cases a <;> cases b <;>
              first
              | (exact absurd ⟨rfl, rfl⟩ (hnot _ _))
              | simp
    refine ⟨hPV, hPM, hPA, ?_⟩
    intro l lst
    induction lst with
    | nil =>
      intro r _ h
      rw [subsetLoop_nil] at h
      cases h
      exact objOk_nil l
    | cons p rest ihl =>
      obtain ⟨k, v⟩ := p
      intro r hb h
      rcases subsetLoop_cons_inv h with ⟨_, h2⟩ | ⟨hn, v2, rest2, hval, h2, hr⟩
      · apply ihl r _ h2
        simp only [dEnts_cons] at hb
        omega
      · subst hr
        rw [objOk_cons]
        have hc : containsKey l k = true := by
          apply contains_of_lookup_ne
          rw [← isNull_false_iff]
          exact hn
        have hcorr : corrOk (lookup l k) v2 = true := by
          apply hPV l k v v2 _ hval
          simp only [dEnts_cons] at hb
          omega
        have hrest : objOk l rest2 = true := by
          apply ihl rest2 _ h2
          simp only [dEnts_cons] at hb
          omega
        rw [hc, hcorr, hrest]
        rfl

theorem ns_ne_api : ("apiVersion" : String) ≠ "namespace" := by decide

theorem lookup_prep_ns {l : GoMap} (c : GoMap) (h : isNull (lookup l "namespace") = false) :
    lookup (prep l c) "namespace" = lookup l "namespace" ∧
    containsKey (prep l c) "namespace" = true := by
  have h1 : lookup (prepNs l c) "namespace" = lookup l "namespace" := by
    unfold prepNs
    rw [if_neg (by simp [h]), lookup_setKey_self]
  have h2 : containsKey (prepNs l c) "namespace" = true := by
    unfold prepNs
    rw [if_neg (by simp [h]), containsKey_setKey_self]
  rw [prep_eq]
  split
  · constructor
    · rw [lookup_setKey_other _ _ ns_ne_api, h1]
    · rw [containsKey_setKey_other _ _ ns_ne_api, h2]
  · exact ⟨h1, h2⟩

theorem prepNs_of_ns_null {l : GoMap} (c : GoMap) (h : isNull (lookup l "namespace") = true) :
    prepNs l c = c := by
  unfold prepNs
  rw [if_pos h]

theorem prepNs_of_ns (l : GoMap) (c : GoMap) (h : isNull (lookup l "namespace") = false) :
    prepNs l c = setKey c "namespace" (lookup l "namespace") := by
  unfold prepNs
  rw [if_neg (by simp [h])]

theorem lookup_prep_api {l : GoMap} (c : GoMap)
    (hcond : (!isNull (lookup l "apiVersion") && !isNull (lookup c "apiVersion")) = true) :
    lookup (prep l c) "apiVersion" = lookup l "apiVersion" ∧
    containsKey (prep l c) "apiVersion" = true := by
  rw [prep_eq, if_pos hcond]
  exact ⟨lookup_setKey_self _ _ _, containsKey_setKey_self _ _ _⟩

theorem prep_api_neg {l : GoMap} (c : GoMap)
    (hcond : (!isNull (lookup l "apiVersion") && !isNull (lookup c "apiVersion")) = false) :
    prep l c = prepNs l c := by
  rw [prep_eq, if_neg (by simp_all)]

theorem prep_api_pos {l : GoMap} (c : GoMap)
    (hcond : (!isNull (lookup l "apiVersion") && !isNull (lookup c "apiVersion")) = true) :
    prep l c = setKey (prepNs l c) "apiVersion" (lookup l "apiVersion") := by
  rw [prep_eq, if_pos hcond]

/-- Every entry of a loop output survived the nil test and is a fixed point of
`subsetVal`, provided `subsetVal` is idempotent up to the relevant depth. -/
theorem reduced_of_loop {l : GoMap} {n : Nat}
    (IV : ∀ k w w', max (dEnts l) (dVal w) ≤ n → subsetVal l k w = some w' →
      subsetVal l k w' = some w') :
    ∀ lst r : GoMap, max (dEnts l) (dEnts lst) ≤ n → subsetLoop l lst = some r →
      ∀ p ∈ r, isNull (lookup l p.1) = false ∧ subsetVal l p.1 p.2 = some p.2 := by
  intro lst
  induction lst with
  | nil =>
    intro r _ h p hp
    rw [subsetLoop_nil] at h
    cases h
    cases hp
  | cons q rest ih =>
    obtain ⟨k, v⟩ := q
    intro r hb h p hp
    rcases subsetLoop_cons_inv h with ⟨_, h2⟩ | ⟨hn, v2, rest2, hval, h2, hr⟩
    · exact ih r (by simp only [dEnts_cons] at hb; omega) h2 p hp
    · subst hr
      rcases List.mem_cons.mp hp with hp | hp
      · subst hp
        exact ⟨hn, IV k v v2 (by simp only [dEnts_cons] at hb; omega) hval⟩
      · exact ih rest2 (by simp only [dEnts_cons] at hb; omega) h2 p hp

/-- Strong induction on the nesting depth establishing idempotence of the
reduction at every recursion level. -/
theorem idemMain : ∀ n : Nat,
    (∀ l k v v', max (dEnts l) (dVal v) ≤ n → subsetVal l k v = some v' →
      subsetVal l k v' = some v') ∧
    (∀ as2 bs bs', max (dMaps as2) (dMaps bs) ≤ n → subsetMaps as2 bs = some bs' →
      subsetMaps as2 bs' = some bs') ∧
    (∀ as2 bs bs', max (dVals as2) (dVals bs) ≤ n → subsetArr as2 bs = some bs' →
      subsetArr as2 bs' = some bs') ∧
    (∀ l c r, max (dEnts l) (dEnts c) ≤ n → subsetLoop l (prep l c) = some r →
      subsetLoop l (prep l r) = some r) := by
  intro n
  induction n using Nat.strong_induction_on with
  | _ n IH =>
    have hIV : ∀ l k v v', max (dEnts l) (dVal v) ≤ n → subsetVal l k v = some v' →
        subsetVal l k v' = some v' := by
      intro l k v v' hb h
      cases v with
      | null => rw [subsetVal_null] at h; cases h; exact subsetVal_null l k
      | str s => rw [subsetVal_str] at h; cases h; exact subsetVal_str l k s
      | int n2 => rw [subsetVal_int] at h; cases h; exact subsetVal_int l k n2
      | bool b2 => rw [subsetVal_bool] at h; cases h; exact subsetVal_bool l k b2
      | obj b =>
        by_cases ho : ∃ a, lookup l k = .obj a
        · obtain ⟨a, hl⟩ := ho
          rw [subsetVal_obj_obj b hl] at h
          rcases hs : subsetLoop a (prep a b) with _ | m <;> rw [hs] at h
          · cases h
          · cases h
            rw [subsetVal_obj_obj m hl]
            have ha := dVal_lookup_le l k
            rw [hl] at ha
            have hlt : max (dEnts a) (dEnts b) < n := by
              simp only [dVal_obj] at *
              omega
            rw [(IH _ hlt).2.2.2 a b m (le_refl _) hs]
        · push_neg at ho
          rw [subsetVal_obj_not b ho] at h
          cases h
          exact subsetVal_obj_not b ho
      | mapList bs =>
        by_cases ho : ∃ as2, lookup l k = .mapList as2
        · obtain ⟨as2, hl⟩ := ho
          rw [subsetVal_mapList_mapList bs hl] at h
          rcases hs : subsetMaps as2 bs with _ | bs2 <;> rw [hs] at h
          · cases h
          · cases h
            rw [subsetVal_mapList_mapList bs2 hl]
            have ha := dVal_lookup_le l k
            rw [hl] at ha
            have hlt : max (dMaps as2) (dMaps bs) < n := by
              simp only [dVal_mapList] at *
              omega
            rw [(IH _ hlt).2.1 as2 bs bs2 (le_refl _) hs]
        · push_neg at ho
          rw [subsetVal_mapList_not bs ho] at h
          cases h
          exact subsetVal_mapList_not bs ho
      | arr bs =>
        by_cases ho : ∃ as2, lookup l k = .arr as2
        · obtain ⟨as2, hl⟩ := ho
          rw [subsetVal_arr_arr bs hl] at h
          rcases hs : subsetArr as2 bs with _ | bs2 <;> rw [hs] at h
          · cases h
          · cases h
            rw [subsetVal_arr_arr bs2 hl]
            have ha := dVal_lookup_le l k
            rw [hl] at ha
            have hlt : max (dVals as2) (dVals bs) < n := by
              simp only [dVal_arr] at *
              omega
            rw [(IH _ hlt).2.2.1 as2 bs bs2 (le_refl _) hs]
        · push_neg at ho
          rw [subsetVal_arr_not bs ho] at h
          cases h
          exact subsetVal_arr_not bs ho
    have hIM : ∀ as2 bs bs', max (dMaps as2) (dMaps bs) ≤ n → subsetMaps as2 bs = some bs' →
        subsetMaps as2 bs' = some bs' := by
      intro as2 bs
      induction bs generalizing as2 with
      | nil =>
        intro bs' _ h
        rw [subsetMaps_nil_right] at h
        cases h
        exact subsetMaps_nil_right as2
      | cons b bs ihb =>
        intro bs' hb h
        cases as2 with
        | nil => rw [subsetMaps_nil_left] at h; cases h
        | cons a as2 =>
          obtain ⟨b2, bs2, h1, h2, hr⟩ := subsetMaps_cons_inv h
          subst hr
          have hlt : max (dEnts a) (dEnts b) < n := by
            simp only [dMaps_cons] at hb
            omega
          have hfix := (IH _ hlt).2.2.2 a b b2 (le_refl _) h1
          have hrest : subsetMaps as2 bs2 = some bs2 := by
            apply ihb as2 bs2 _ h2
            simp only [dMaps_cons] at hb
            omega
          rw [subsetMaps_cons, hfix, hrest]
    have hIA : ∀ as2 bs bs', max (dVals as2) (dVals bs) ≤ n → subsetArr as2 bs = some bs' →
        subsetArr as2 bs' = some bs' := by
      intro as2 bs
      induction bs generalizing as2 with
      | nil =>
        intro bs' _ h
        rw [subsetArr_nil_right] at h
        cases h
        exact subsetArr_nil_right as2
      | cons b bs ihb =>
        intro bs' hb h
        cases as2 with
        | nil =>
          rw [subsetArr_nil_left] at h
          cases h
          exact subsetArr_nil_left b bs
        | cons a as2 =>
          by_cases hob : ∃ x y, a = GoVal.obj x ∧ b = GoVal.obj y
          · obtain ⟨x, y, hx, hy⟩ := hob
            subst hx
            subst hy
            obtain ⟨m, bs2, h1, h2, hr⟩ := subsetArr_cons_inv_objs h
            subst hr
            have hlt : max (dEnts x) (dEnts y) < n := by
              simp only [dVals_cons, dVal_obj] at hb
              omega
            have hfix := (IH _ hlt).2.2.2 x y m (le_refl _) h1
            have hrest : subsetArr as2 bs2 = some bs2 := by
              apply ihb as2 bs2 _ h2
              simp only [dVals_cons] at hb
              omega
            rw [subsetArr_cons]
            dsimp only
            rw [hfix, hrest]
          · have hnot : ∀ x y, ¬(a = GoVal.obj x ∧ b = GoVal.obj y) := by
              intro x y hxy
              exact hob ⟨x, y, hxy⟩
            obtain ⟨bs2, h2, hr⟩ := subsetArr_cons_inv_other hnot h
            subst hr
            have hrest : subsetArr as2 bs2 = some bs2 := by
              apply ihb as2 bs2 _ h2
              simp only [dVals_cons] at hb
              omega
            rw [subsetArr_cons]
            have hm2 : (match a, b with
                | GoVal.obj x, GoVal.obj y =>
                  (match subsetLoop x (prep x y) with
                    | none => none
                    | some m =>
                      match subsetArr as2 bs2 with
                      | none => none
                      | some bs3 => some (GoVal.obj m :: bs3))
                | _, _ =>
                  (match subsetArr as2 bs2 with
                    | none => none
                    | some bs3 => some (b :: bs3))) =
                (match subsetArr as2 bs2 with
                  | none => none
                  | some bs3 => some (b :: bs3)) := by
              clear h h2 hrest
              cases a <;> cases b <;> first | rfl | (exact absurd ⟨rfl, rfl⟩ (hnot _ _))
            rw [hm2, hrest]
    refine ⟨hIV, hIM, hIA, ?_⟩
    intro l c r hb hpass
    have hprepb : max (dEnts l) (dEnts (prep l c)) ≤ n := by
      have := dEnts_prep_le l c
      omega
    have hred := reduced_of_loop (fun k w w' hw hsv => hIV l k w w' hw hsv)
      (prep l c) r hprepb hpass
    have hfix : subsetLoop l r = some r := subsetLoop_of_reduced hred
    have hloop1 : subsetLoop l (prepNs l r) = some r := by
      by_cases hns : isNull (lookup l "namespace") = true
      · rw [prepNs_of_ns_null r hns]
        exact hfix
      · have hns' : isNull (lookup l "namespace") = false := by simpa using hns
        obtain ⟨hpl, hpc⟩ := lookup_prep_ns c hns'
        obtain ⟨hrc, hrv⟩ := subsetLoop_lookup hns' hpass hpc
        rw [hpl] at hrv
        rw [prepNs_of_ns l r hns']
        have := subsetLoop_setKey hns' hrv hfix hrc
        rwa [setKey_lookup_self hrc] at this
    by_cases hcond : (!isNull (lookup l "apiVersion") && !isNull (lookup c "apiVersion")) = true
    · have hav : isNull (lookup l "apiVersion") = false := by
        rcases h2 : isNull (lookup l "apiVersion") with _ | _
        · rfl
        · rw [h2] at hcond; simp at hcond
      obtain ⟨hpl, hpc⟩ := lookup_prep_api c hcond
      obtain ⟨hrc, hrv⟩ := subsetLoop_lookup hav hpass hpc
      rw [hpl] at hrv
      have hrapi : isNull (lookup r "apiVersion") = false := by
        rw [isNull_false_iff]
        exact subsetVal_ne_null hrv (by rw [← isNull_false_iff]; exact hav)
      have hcond2 : (!isNull (lookup l "apiVersion") && !isNull (lookup r "apiVersion")) = true := by
        rw [hav, hrapi]
        rfl
      rw [prep_api_pos r hcond2]
      have hc1 : containsKey (prepNs l r) "apiVersion" = true := by
        rw [containsKey_prepNs_other l r ns_ne_api]
        exact hrc
      have := subsetLoop_setKey hav hrv hloop1 hc1
      have hsk : setKey r "apiVersion" (lookup r "apiVersion") = r := setKey_lookup_self hrc
      rwa [hsk] at this
    · have hcond' : (!isNull (lookup l "apiVersion") && !isNull (lookup c "apiVersion")) = false := by
        simpa using hcond
      have hcond2 : (!isNull (lookup l "apiVersion") && !isNull (lookup r "apiVersion")) = false := by
        rcases hav : isNull (lookup l "apiVersion") with _ | _
        · have hcapi : isNull (lookup c "apiVersion") = true := by
            rw [hav] at hcond'
            simpa using hcond'
          have hclapi : lookup (prep l c) "apiVersion" = .null := by
            rw [prep_api_neg c hcond', lookup_prepNs_api]
            exact (isNull_iff _).mp hcapi
          have hrapi := subsetLoop_lookup_null (prep l c) r hpass hclapi
          rw [hrapi]
          rfl
        · rfl
      rw [prep_api_neg r hcond2]
      exact hloop1

mutual

/-- The precondition, mirrored on the recursion structure of `subsetVal`,
under which the branch of `subset` that indexes into the desired list
unguarded never goes out of range: wherever the reduction pairs a desired
`[]map[string]interface` list with a live one, the desired list is at least
as long, recursively at every nesting level that the reduction visits. -/
def wfVal (l : GoMap) (k : String) (v : GoVal) : Bool :=
  match v with
  | .obj b =>
    match h : lookup l k with
    | .obj a => wfLoop a (prep a b)
    | _ => true
  | .mapList bs =>
    match h : lookup l k with
    | .mapList as2 => wfMaps as2 bs
    | _ => true
  | .arr bs =>
    match h : lookup l k with
    | .arr as2 => wfArr as2 bs
    | _ => true
  | _ => true
  termination_by ((max (dEnts l) (dVal v), 0) : Nat × Nat)
  decreasing_by
  · apply Prod.Lex.left
    rename_i b
    have ha := dVal_lookup_le l k
    rw [h] at ha
    have hp := dEnts_prep_le a b
    simp only [dVal_obj] at *
    omega
  · apply Prod.Lex.left
    have ha := dVal_lookup_le l k
    rw [h] at ha
    simp only [dVal_mapList] at *
    omega
  · apply Prod.Lex.left
    have ha := dVal_lookup_le l k
    rw [h] at ha
    simp only [dVal_arr] at *
    omega

/-- Precondition for the main loop: every surviving entry is well formed. -/
def wfLoop (l : GoMap) (lst : GoMap) : Bool :=
  match lst with
  | [] => true
  | (k, v) :: rest =>
    (if isNull (lookup l k) then true else wfVal l k v) && wfLoop l rest
  termination_by ((max (dEnts l) (dEnts lst), 1 + lst.length) : Nat × Nat)
  decreasing_by
  · apply lexHelp
    · simp only [dEnts_cons]; omega
    · intro _; simp only [List.length_cons]; omega
  · apply lexHelp
    · simp only [dEnts_cons]; omega
    · intro _; simp only [List.length_cons]; omega

/-- Precondition for the `[]map[string]interface` branch: the desired list is
at least as long as the live list, and the paired elements are well formed. -/
def wfMaps (as2 : List GoMap) (bs : List GoMap) : Bool :=
  match as2, bs with
  | _, [] => true
  | [], _ :: _ => false
  | a :: as2, b :: bs => wfLoop a (prep a b) && wfMaps as2 bs
  termination_by ((max (dMaps as2) (dMaps bs), bs.length) : Nat × Nat)
  decreasing_by
  · apply Prod.Lex.left
    have := dEnts_prep_le a b
    simp only [dMaps_cons]
    omega
  · apply lexHelp
    · simp only [dMaps_cons]; omega
    · intro _; simp only [List.length_cons]; omega

/-- Precondition for the `[]interface` branch: paired nested maps are well
formed (other positions never recurse, hence are unconstrained). -/
def wfArr (as2 : List GoVal) (bs : List GoVal) : Bool :=
  match as2, bs with
  | _, [] => true
  | [], _ :: _ => true
  | a :: as2, b :: bs =>
    (match a, b with
      | .obj x, .obj y => wfLoop x (prep x y)
      | _, _ => true) && wfArr as2 bs
  termination_by ((max (dVals as2) (dVals bs), bs.length) : Nat × Nat)
  decreasing_by
  · apply Prod.Lex.left
    have := dEnts_prep_le x y
    simp only [dVals_cons, dVal_obj]
    omega
  · apply lexHelp
    · simp only [dVals_cons]; omega
    · intro _; simp only [List.length_cons]; omega

end

/-- The spec's precondition for the homogeneous-list branch, phrased for a
whole desired/live pair. -/
def wfSubset (l c : GoMap) : Bool :=
  wfLoop l (prep l c)

theorem wfLoop_nil (l : GoMap) : wfLoop l [] = true := by rw [wfLoop]

theorem wfLoop_cons (l : GoMap) (k : String) (v : GoVal) (rest : GoMap) :
    wfLoop l ((k, v) :: rest) =
      ((if isNull (lookup l k) then true else wfVal l k v) && wfLoop l rest) := by
  rw [wfLoop]

theorem wfVal_scalar (l : GoMap) (k : String) (v : GoVal) (hv : isScalar v = true) :
    wfVal l k v = true := by
  cases v <;> simp [isScalar] at hv ⊢ <;> rw [wfVal] <;> simp

theorem wfVal_obj_obj {l : GoMap} {k : String} {a : GoMap} (b : GoMap)
    (hl : lookup l k = .obj a) : wfVal l k (.obj b) = wfLoop a (prep a b) := by
  rw [wfVal]
  split
  · rename_i a' h
    rw [hl] at h
    cases h
    rfl
  · rename_i hne
    exact absurd hl (fun hh => hne a hh)

theorem wfVal_obj_not {l : GoMap} {k : String} (b : GoMap)
    (hl : ∀ a, lookup l k ≠ .obj a) : wfVal l k (.obj b) = true := by
  rw [wfVal]
  split
  · rename_i a' h
    exact absurd h (hl a')
  · rfl

theorem wfVal_mapList_mapList {l : GoMap} {k : String} {as2 : List GoMap}
    (bs : List GoMap) (hl : lookup l k = .mapList as2) :
    wfVal l k (.mapList bs) = wfMaps as2 bs := by
  rw [wfVal]
  split
  · rename_i a' h
    rw [hl] at h
    cases h
    rfl
  · rename_i hne
    exact absurd hl (fun hh => hne as2 hh)

theorem wfVal_mapList_not {l : GoMap} {k : String} (bs : List GoMap)
    (hl : ∀ as2, lookup l k ≠ .mapList as2) : wfVal l k (.mapList bs) = true := by
  rw [wfVal]
  split
  · rename_i a' h
    exact absurd h (hl a')
  · rfl

theorem wfVal_arr_arr {l : GoMap} {k : String} {as2 : List GoVal}
    (bs : List GoVal) (hl : lookup l k = .arr as2) :
    wfVal l k (.arr bs) = wfArr as2 bs := by
  rw [wfVal]
  split
  · rename_i a' h
    rw [hl] at h
    cases h
    rfl
  · rename_i hne
    exact absurd hl (fun hh => hne as2 hh)

theorem wfVal_arr_not {l : GoMap} {k : String} (bs : List GoVal)
    (hl : ∀ as2, lookup l k ≠ .arr as2) : wfVal l k (.arr bs) = true := by
  rw [wfVal]
  split
  · rename_i a' h
    exact absurd h (hl a')
  · rfl

theorem wfMaps_nil_right (as2 : List GoMap) : wfMaps as2 [] = true := by
  rw [wfMaps] <;> simp

theorem wfMaps_nil_left (b : GoMap) (bs : List GoMap) : wfMaps [] (b :: bs) = false := by
  rw [wfMaps]

theorem wfMaps_cons (a : GoMap) (as2 : List GoMap) (b : GoMap) (bs : List GoMap) :
    wfMaps (a :: as2) (b :: bs) = (wfLoop a (prep a b) && wfMaps as2 bs) := by
  rw [wfMaps]

theorem wfArr_nil_right (as2 : List GoVal) : wfArr as2 [] = true := by
  rw [wfArr] <;> simp

theorem wfArr_nil_left (b : GoVal) (bs : List GoVal) : wfArr [] (b :: bs) = true := by
  rw [wfArr]

theorem wfArr_cons (a : GoVal) (as2 : List GoVal) (b : GoVal) (bs : List GoVal) :
    wfArr (a :: as2) (b :: bs) =
      ((match a, b with
        | .obj x, .obj y => wfLoop x (prep x y)
        | _, _ => true) && wfArr as2 bs) := by
  cases a <;> cases b <;> rw [wfArr] <;> simp

/-- Strong induction on the nesting depth: under the well-formedness
precondition the reduction never takes the out-of-range (`none`) branch. -/
theorem noPanicMain : ∀ n : Nat,
    (∀ l k v, max (dEnts l) (dVal v) ≤ n → wfVal l k v = true →
      ∃ v', subsetVal l k v = some v') ∧
    (∀ as2 bs, max (dMaps as2) (dMaps bs) ≤ n → wfMaps as2 bs = true →
      ∃ bs', subsetMaps as2 bs = some bs') ∧
    (∀ as2 bs, max (dVals as2) (dVals bs) ≤ n → wfArr as2 bs = true →
      ∃ bs', subsetArr as2 bs = some bs') ∧
    (∀ l lst, max (dEnts l) (dEnts lst) ≤ n → wfLoop l lst = true →
      ∃ r, subsetLoop l lst = some r) := by
  intro n
  induction n using Nat.strong_induction_on with
  | _ n IH =>
    have hPV : ∀ l k v, max (dEnts l) (dVal v) ≤ n → wfVal l k v = true →
        ∃ v', subsetVal l k v = some v' := by
      intro l k v hb hw
      cases v with
      | null => exact ⟨_, subsetVal_null l k⟩
      | str s => exact ⟨_, subsetVal_str l k s⟩
      | int n2 => exact ⟨_, subsetVal_int l k n2⟩
      | bool b2 => exact ⟨_, subsetVal_bool l k b2⟩
      | obj b =>
        by_cases ho : ∃ a, lookup l k = .obj a
        · obtain ⟨a, hl⟩ := ho
          rw [wfVal_obj_obj b hl] at hw
          have ha := dVal_lookup_le l k
          rw [hl] at ha
          have hp := dEnts_prep_le a b
          have hlt : max (dEnts a) (dEnts (prep a b)) < n := by
            simp only [dVal_obj] at *
            omega
          obtain ⟨m, hm⟩ := (IH _ hlt).2.2.2 a (prep a b) (le_refl _) hw
          exact ⟨.obj m, by rw [subsetVal_obj_obj b hl, hm]⟩
        · push_neg at ho
          exact ⟨_, subsetVal_obj_not b ho⟩
      | mapList bs =>
        by_cases ho : ∃ as2, lookup l k = .mapList as2
        · obtain ⟨as2, hl⟩ := ho
          rw [wfVal_mapList_mapList bs hl] at hw
          have ha := dVal_lookup_le l k
          rw [hl] at ha
          have hlt : max (dMaps as2) (dMaps bs) < n := by
            simp only [dVal_mapList] at *
            omega
          obtain ⟨bs2, hm⟩ := (IH _ hlt).2.1 as2 bs (le_refl _) hw
          exact ⟨.mapList bs2, by rw [subsetVal_mapList_mapList bs hl, hm]⟩
        · push_neg at ho
          exact ⟨_, subsetVal_mapList_not bs ho⟩
      | arr bs =>
        by_cases ho : ∃ as2, lookup l k = .arr as2
        · obtain ⟨as2, hl⟩ := ho
          rw [wfVal_arr_arr bs hl] at hw
          have ha := dVal_lookup_le l k
          rw [hl] at ha
          have hlt : max (dVals as2) (dVals bs) < n := by
            simp only [dVal_arr] at *
            omega
          obtain ⟨bs2, hm⟩ := (IH _ hlt).2.2.1 as2 bs (le_refl _) hw
          exact ⟨.arr bs2, by rw [subsetVal_arr_arr bs hl, hm]⟩
        · push_neg at ho
          exact ⟨_, subsetVal_arr_not bs ho⟩
    have hPM : ∀ as2 bs, max (dMaps as2) (dMaps bs) ≤ n → wfMaps as2 bs = true →
        ∃ bs', subsetMaps as2 bs = some bs' := by
      intro as2 bs
      induction bs generalizing as2 with
      | nil => intro _ _; exact ⟨[], subsetMaps_nil_right as2⟩
      | cons b bs ihb =>
        intro hb hw
        cases as2 with
        | nil => rw [wfMaps_nil_left] at hw; cases hw
        | cons a as2 =>
          rw [wfMaps_cons, Bool.and_eq_true] at hw
          have hp := dEnts_prep_le a b
          have hlt : max (dEnts a) (dEnts (prep a b)) < n := by
            simp only [dMaps_cons] at hb
            omega
          obtain ⟨b2, h1⟩ := (IH _ hlt).2.2.2 a (prep a b) (le_refl _) hw.1
          obtain ⟨bs2, h2⟩ := ihb as2 (by simp only [dMaps_cons] at hb; omega) hw.2
          exact ⟨b2 :: bs2, by rw [subsetMaps_cons, h1, h2]⟩
    have hPA : ∀ as2 bs, max (dVals as2) (dVals bs) ≤ n → wfArr as2 bs = true →
        ∃ bs', subsetArr as2 bs = some bs' := by
      intro as2 bs
      induction bs generalizing as2 with
      | nil => intro _ _; exact ⟨[], subsetArr_nil_right as2⟩
      | cons b bs ihb =>
        intro hb hw
        cases as2 with
        | nil => exact ⟨b :: bs, subsetArr_nil_left b bs⟩
        | cons a as2 =>
          rw [wfArr_cons, Bool.and_eq_true] at hw
          obtain ⟨bs2, h2⟩ := ihb as2 (by simp only [dVals_cons] at hb; omega) hw.2
          by_cases hob : ∃ x y, a = GoVal.obj x ∧ b = GoVal.obj y
          · obtain ⟨x, y, hx, hy⟩ := hob
            subst hx
            subst hy
            have hwxy : wfLoop x (prep x y) = true := hw.1
            have hp := dEnts_prep_le x y
            have hlt : max (dEnts x) (dEnts (prep x y)) < n := by
              simp only [dVals_cons, dVal_obj] at hb
              omega
            obtain ⟨m, h1⟩ := (IH _ hlt).2.2.2 x (prep x y) (le_refl _) hwxy
            refine ⟨.obj m :: bs2, ?_⟩
            rw [subsetArr_cons]
            dsimp only
            rw [h1, h2]
          · have hnot : ∀ x y, ¬(a = GoVal.obj x ∧ b = GoVal.obj y) := by
              intro x y hxy
              exact hob ⟨x, y, hxy⟩
            refine ⟨b :: bs2, ?_⟩
            rw [subsetArr_cons]
            have hm2 : (match a, b with
                | GoVal.obj x, GoVal.obj y =>
                  (match subsetLoop x (prep x y) with
                    | none => none
                    | some m =>
                      match subsetArr as2 bs with
                      | none => none
                      | some bs3 => some (GoVal.obj m :: bs3))
                | _, _ =>
                  (match subsetArr as2 bs with
                    | none => none
                    | some bs3 => some (b :: bs3))) =
                (match subsetArr as2 bs with
                  | none => none
                  | some bs3 => some (b :: bs3)) := by
              clear h2 hw
              cases a <;> cases b <;> first | rfl | (exact absurd ⟨rfl, rfl⟩ (hnot _ _))
            rw [hm2, h2]
    refine ⟨hPV, hPM, hPA, ?_⟩
    intro l lst
    induction lst with
    | nil => intro _ _; exact ⟨[], subsetLoop_nil l⟩
    | cons p rest ihl =>
      obtain ⟨k, v⟩ := p
      intro hb hw
      rw [wfLoop_cons, Bool.and_eq_true] at hw
      obtain ⟨rest2, h2⟩ := ihl (by simp only [dEnts_cons] at hb; omega) hw.2
      by_cases hn : isNull (lookup l k) = true
      · exact ⟨rest2, by rw [subsetLoop_cons, if_pos hn]; exact h2⟩
      · have hw1 : wfVal l k v = true := by
          have := hw.1
          rwa [if_neg hn] at this
        obtain ⟨v2, h1⟩ := hPV l k v (by simp only [dEnts_cons] at hb; omega) hw1
        exact ⟨(k, v2) :: rest2, by
          rw [subsetLoop_cons, if_neg hn, h1, h2]⟩

/-- The `[]interface` branch never changes the length of the live list: the
tail beyond the desired list is kept, not truncated. -/
theorem subsetArr_length : ∀ {as2 bs bs' : List GoVal}, subsetArr as2 bs = some bs' →
    bs'.length = bs.length := by
  intro as2 bs
  induction bs generalizing as2 with
  | nil =>
    intro bs' h
    rw [subsetArr_nil_right] at h
    cases h
    rfl
  | cons b bs ih =>
    intro bs' h
    cases as2 with
    | nil =>
      rw [subsetArr_nil_left] at h
      cases h
      rfl
    | cons a as2 =>
      by_cases hob : ∃ x y, a = GoVal.obj x ∧ b = GoVal.obj y
      · obtain ⟨x, y, hx, hy⟩ := hob
        subst hx
        subst hy
        obtain ⟨m, bs2, _, h2, hr⟩ := subsetArr_cons_inv_objs h
        subst hr
        simp [ih h2]
      · have hnot : ∀ x y, ¬(a = GoVal.obj x ∧ b = GoVal.obj y) := by
          intro x y hxy
          exact hob ⟨x, y, hxy⟩
        obtain ⟨bs2, h2, hr⟩ := subsetArr_cons_inv_other hnot h
        subst hr
        simp [ih h2]

/-- In the `[]interface` branch, a position is rewritten only when both sides
hold nested maps: every other position keeps the original live element. -/
theorem subsetArr_unchanged : ∀ {as2 bs bs' : List GoVal},
    subsetArr as2 bs = some bs' → ∀ i : Nat,
    ¬(∃ x y, as2[i]? = some (GoVal.obj x) ∧ bs[i]? = some (GoVal.obj y)) →
    bs'[i]? = bs[i]? := by
  intro as2 bs
  induction bs generalizing as2 with
  | nil =>
    intro bs' h i _
    rw [subsetArr_nil_right] at h
    cases h
    rfl
  | cons b bs ih =>
    intro bs' h i hno
    cases as2 with
    | nil =>
      rw [subsetArr_nil_left] at h
      cases h
      rfl
    | cons a as2 =>
      by_cases hob : ∃ x y, a = GoVal.obj x ∧ b = GoVal.obj y
      · obtain ⟨x, y, hx, hy⟩ := hob
        subst hx
        subst hy
        obtain ⟨m, bs2, _, h2, hr⟩ := subsetArr_cons_inv_objs h
        subst hr
        cases i with
        | zero => exact absurd ⟨x, y, by simp⟩ hno
        | succ j =>
          simp only [List.getElem?_cons_succ]
          apply ih h2 j
          intro ⟨x2, y2, hx2, hy2⟩
          exact hno ⟨x2, y2, by simpa using hx2, by simpa using hy2⟩
      · have hnot : ∀ x y, ¬(a = GoVal.obj x ∧ b = GoVal.obj y) := by
          intro x y hxy
          exact hob ⟨x, y, hxy⟩
        obtain ⟨bs2, h2, hr⟩ := subsetArr_cons_inv_other hnot h
        subst hr
        cases i with
        | zero => simp
        | succ j =>
          simp only [List.getElem?_cons_succ]
          apply ih h2 j
          intro ⟨x2, y2, hx2, hy2⟩
          exact hno ⟨x2, y2, by simpa using hx2, by simpa using hy2⟩

/-- In the `[]interface` branch, a position where both sides hold nested maps
is rewritten to the recursive reduction of the pair. -/
theorem subsetArr_reduces : ∀ {as2 bs bs' : List GoVal},
    subsetArr as2 bs = some bs' → ∀ (i : Nat) (x y : GoMap),
    as2[i]? = some (GoVal.obj x) → bs[i]? = some (GoVal.obj y) →
    ∃ m, subsetLoop x (prep x y) = some m ∧ bs'[i]? = some (GoVal.obj m) := by
  intro as2 bs
  induction bs generalizing as2 with
  | nil =>
    intro bs' h i x y _ hy
    simp at hy
  | cons b bs ih =>
    intro bs' h i x y hx hy
    cases as2 with
    | nil => simp at hx
    | cons a as2 =>
      cases i with
      | zero =>
        simp only [List.getElem?_cons_zero] at hx hy
        cases hx
        cases hy
        obtain ⟨m, bs2, h1, h2, hr⟩ := subsetArr_cons_inv_objs h
        subst hr
        exact ⟨m, h1, by simp⟩
      | succ j =>
        simp only [List.getElem?_cons_succ] at hx hy
        by_cases hob : ∃ x2 y2, a = GoVal.obj x2 ∧ b = GoVal.obj y2
        · obtain ⟨x2, y2, hx2, hy2⟩ := hob
          subst hx2
          subst hy2
          obtain ⟨m, bs2, _, h2, hr⟩ := subsetArr_cons_inv_objs h
          subst hr
          obtain ⟨m2, hm1, hm2⟩ := ih h2 j x y hx hy
          exact ⟨m2, hm1, by simpa using hm2⟩
        · have hnot : ∀ x2 y2, ¬(a = GoVal.obj x2 ∧ b = GoVal.obj y2) := by
            intro x2 y2 hxy
            exact hob ⟨x2, y2, hxy⟩
          obtain ⟨bs2, h2, hr⟩ := subsetArr_cons_inv_other hnot h
          subst hr
          obtain ⟨m2, hm1, hm2⟩ := ih h2 j x y hx hy
          exact ⟨m2, hm1, by simpa using hm2⟩

/-- The per-manifest difference record (Go struct `difference` in
`subsetdiff.go`).  As in the source, the `local_` field receives the reduced
live-state text and the `cluster` field the desired-state text. -/
structure difference where
  name : String
  local_ : String
  cluster : String

/-- Outcome of the cluster accessor's `Get` call for one manifest: success
with a live tree, the distinguished not-found error, or any other error.
The accessor itself is an external collaborator (spec section 6). -/
inductive GetResult where
  | ok (res : GoMap)
  | notFound
  | err (msg : String)

/-- The tail of Go's `subsetDiff` after the fetch-error handling: serialize
the desired manifest, reduce and serialize the live tree (`res` is the empty
tree on not-found), normalize the canonical empty-object text to the empty
string, and build the record.  The outer `Option` models a runtime panic of
the reduction; `Except` models the Go `error` result. -/
def subsetDiffRun (serialize : GoMap → String) (name : String) (m res : GoMap) :
    Option (Except String difference) :=
  match subset m res with
  | none => none
  | some red =>
    let localS := serialize m
    let clusterS := serialize red
    let clusterS2 := if clusterS = "\x7b\x7d\n" then "" else clusterS
    some (.ok { name := name, local_ := clusterS2, cluster := localS })

/-- Go's `subsetDiff(c, m)`: fetch the live state (the collaborator call is
represented by its outcome `getRes`), map the not-found error to the empty
tree, wrap any other fetch error, and otherwise build the difference record.
The serializer (`Manifest.String`) and the label function (`util.DiffName`)
are external collaborators passed as parameters. -/
def subsetDiff (serialize : GoMap → String) (diffName : GoMap → String)
    (getRes : GetResult) (m : GoMap) : Option (Except String difference) :=
  let name := diffName m
  match getRes with
  | .err e => some (.error ("getting state from cluster: " ++ e))
  | .notFound => subsetDiffRun serialize name m []
  | .ok res => subsetDiffRun serialize name m res

/-- The fan-in loop of `SubsetDiffer`: consume one completion signal per
worker in arrival order, appending successful records and remembering only
the most recent error. -/
def gatherLoop (arrivals : List (Except String difference)) (docs : List difference)
    (lastErr : Option String) : List difference × Option String :=
  match arrivals with
  | [] => (docs, lastErr)
  | .ok d :: rest => gatherLoop rest (docs ++ [d]) lastErr
  | .error e :: rest => gatherLoop rest docs (some e)

/-- The rendering loop of `SubsetDiffer`: invoke the external text-diff
renderer on every record, appending a newline after each non-empty output;
a renderer error aborts with a wrapped error. -/
def renderDocs (diffStr : String → String → String → Except String String) :
    List difference → Except String String
  | [] => .ok ""
  | d :: rest =>
    match diffStr d.name d.local_ d.cluster with
    | .error e => .error ("invoking diff: " ++ e)
    | .ok s =>
      let s2 := if s ≠ "" then s ++ "\n" else s
      match renderDocs diffStr rest with
      | .error e => .error e
      | .ok restS => .ok (s2 ++ restS)

/-- Go's `strings.TrimSuffix(diffs, "\n")`. -/
def trimNewline (s : String) : String :=
  if s.endsWith "\n" then s.dropRight 1 else s

/-- The function returned by `SubsetDiffer`, applied to the sequence of
worker completion signals in their (nondeterministic) arrival order: drain
all workers, fail with the wrapped last-seen error if any worker failed, and
otherwise concatenate the non-empty rendered diffs.  `Except.error` models
the Go return `(nil, err)`; `Except.ok none` models `(nil, nil)` (no
differences); `Except.ok (some s)` models a non-nil diff string. -/
def computeDiff (diffStr : String → String → String → Except String String)
    (arrivals : List (Except String difference)) : Except String (Option String) :=
  match gatherLoop arrivals [] none with
  | (docs, lastErr) =>
    match lastErr with
    | some e => .error ("calculating subset: " ++ e)
    | none =>
      match renderDocs diffStr docs with
      | .error e => .error e
      | .ok diffs =>
        let diffs2 := trimNewline diffs
        if diffs2 = "" then .ok none else .ok (some diffs2)

/-- Once an error has been observed (or is present among the remaining
arrivals), the drain loop ends with a recorded error. -/
theorem gatherLoop_snd_some :
    ∀ (arrivals : List (Except String difference)) (docs : List difference)
      (le : Option String),
      ((∃ e0, le = some e0) ∨ ∃ e, Except.error e ∈ arrivals) →
      ∃ e', (gatherLoop arrivals docs le).2 = some e' := by
  intro arrivals
  induction arrivals with
  | nil =>
    intro docs le h
    rcases h with ⟨e0, he0⟩ | ⟨e, he⟩
    · exact ⟨e0, by rw [gatherLoop, he0]⟩
    · cases he
  | cons a rest ih =>
    intro docs le h
    cases a with
    | ok d =>
      apply ih (docs ++ [d]) le
      rcases h with h | ⟨e, he⟩
      · exact Or.inl h
      · rcases List.mem_cons.mp he with he | he
        · cases he
        · exact Or.inr ⟨e, he⟩
    | error e =>
      exact ih docs (some e) (Or.inl ⟨e, rfl⟩)

/-- C1: for every desired tree and every live tree, every key present at any
nesting level of the tree returned by `subset(desired, live)` is also present
in the corresponding desired subtree, with the only possible exceptions being
the "namespace" and "apiVersion" fields copied from desired into live. -/
theorem claim01_subset_keys_invariant (l c r : GoMap) (h : subset l c = some r) :
    objOk l r = true := by
  unfold subset at h
  have hp := dEnts_prep_le l c
  exact (keysInvariantMain (max (dEnts l) (dEnts c))).2.2.2 l (prep l c) r (by omega) h

theorem claim01_witness :
    subset [("a", GoVal.int 1), ("b", GoVal.obj [("c", GoVal.int 2)])]
        [("a", GoVal.int 3), ("b", GoVal.obj [("c", GoVal.int 9), ("d", GoVal.int 5)]),
          ("z", GoVal.int 7)] =
      some [("a", GoVal.int 3), ("b", GoVal.obj [("c", GoVal.int 9)])] ∧
    objOk [("a", GoVal.int 1), ("b", GoVal.obj [("c", GoVal.int 2)])]
        [("a", GoVal.int 3), ("b", GoVal.obj [("c", GoVal.int 9)])] = true :=
  ⟨by simp [subset, prep, prepNs, subsetLoop, subsetVal, lookup, setKey, isNull],
    claim01_subset_keys_invariant [("a", GoVal.int 1), ("b", GoVal.obj [("c", GoVal.int 2)])]
      [("a", GoVal.int 3), ("b", GoVal.obj [("c", GoVal.int 9), ("d", GoVal.int 5)]),
        ("z", GoVal.int 7)]
      [("a", GoVal.int 3), ("b", GoVal.obj [("c", GoVal.int 9)])]
      (by simp [subset, prep, prepNs, subsetLoop, subsetVal, lookup, setKey, isNull])⟩

/-- C2 counterexample: for a desired tree with a non-nil top-level
"namespace" value, reducing the empty live tree yields a non-empty tree (the
namespace injection adds the key), refuting the claim as stated. -/
theorem claim02_counterexample :
    subset [("namespace", GoVal.str "x")] [] = some [("namespace", GoVal.str "x")] ∧
    some [("namespace", GoVal.str "x")] ≠ some ([] : GoMap) :=
  ⟨by simp [subset, prep, prepNs, subsetLoop, subsetVal, lookup, setKey, isNull],
    by simp⟩

/-- C2 (amended): for every desired tree whose top-level "namespace" value is
nil (absent or explicit null), applying `subset` with an empty live tree
returns an empty tree. -/
theorem claim02_empty_live_amended (l : GoMap) (h : lookup l "namespace" = .null) :
    subset l [] = some [] := by
  unfold subset
  have hns : isNull (lookup l "namespace") = true := by rw [h]; rfl
  have h1 : prepNs l [] = [] := prepNs_of_ns_null [] hns
  have h2 : prep l [] = [] := by
    rw [prep_eq, h1]
    simp [lookup, isNull]
  rw [h2, subsetLoop_nil]

theorem claim02_witness :
    lookup [("a", GoVal.int 1)] "namespace" = GoVal.null ∧
    subset [("a", GoVal.int 1)] [] = some [] :=
  ⟨by simp [lookup], claim02_empty_live_amended _ (by simp [lookup])⟩

/-- C3: `subset` is idempotent — reducing an already-reduced tree again
against the same desired tree returns it unchanged. -/
theorem claim03_subset_idempotent (l c r : GoMap) (h : subset l c = some r) :
    subset l r = some r := by
  unfold subset at h ⊢
  exact (idemMain (max (dEnts l) (dEnts c))).2.2.2 l c r (le_refl _) h

theorem claim03_witness :
    subset [("a", GoVal.int 1)] [("a", GoVal.int 2), ("b", GoVal.int 3)] =
      some [("a", GoVal.int 2)] ∧
    subset [("a", GoVal.int 1)] [("a", GoVal.int 2)] = some [("a", GoVal.int 2)] :=
  ⟨by simp [subset, prep, prepNs, subsetLoop, subsetVal, lookup, setKey, isNull],
    claim03_subset_idempotent [("a", GoVal.int 1)] [("a", GoVal.int 2), ("b", GoVal.int 3)]
      [("a", GoVal.int 2)]
      (by simp [subset, prep, prepNs, subsetLoop, subsetVal, lookup, setKey, isNull])⟩

/-- C4 counterexample: when the desired "namespace" value is itself a nested
map, the injected value is reduced against itself by the main loop, so the
result maps "namespace" to a value different from desired's namespace value,
refuting the claim as stated. -/
theorem claim04_counterexample :
    subset [("namespace", GoVal.obj [("x", GoVal.null)])] [] =
      some [("namespace", GoVal.obj [])] ∧
    lookup [("namespace", GoVal.obj [])] "namespace" ≠
      lookup [("namespace", GoVal.obj [("x", GoVal.null)])] "namespace" :=
  ⟨by simp [subset, prep, prepNs, subsetLoop, subsetVal, lookup, setKey, isNull],
    by simp [lookup]⟩

/-- C4 (amended): restricted to scalar field values.  If desired's
"namespace" is a non-nil scalar, the result maps "namespace" to it (even if
live had no such key); if both apiVersions are non-nil and desired's is a
scalar, the result maps "apiVersion" to desired's value; and "apiVersion" is
never inserted when live lacks the key. -/
theorem claim04_injection_amended (l c r : GoMap) (h : subset l c = some r) :
    (isScalar (lookup l "namespace") = true → lookup l "namespace" ≠ .null →
      lookup r "namespace" = lookup l "namespace") ∧
    (isScalar (lookup l "apiVersion") = true → lookup l "apiVersion" ≠ .null →
      lookup c "apiVersion" ≠ .null → lookup r "apiVersion" = lookup l "apiVersion") ∧
    (containsKey c "apiVersion" = false → containsKey r "apiVersion" = false) := by
  unfold subset at h
  refine ⟨?_, ?_, ?_⟩
  · intro hsc hnn
    have hns : isNull (lookup l "namespace") = false := (isNull_false_iff _).mpr hnn
    obtain ⟨hpl, hpc⟩ := lookup_prep_ns c hns
    obtain ⟨_, hrv⟩ := subsetLoop_lookup hns h hpc
    rw [hpl] at hrv
    rcases hnsv : lookup l "namespace" with _ | s | n2 | b2 | a | ls | vs
    · exact absurd hnsv hnn
    · rw [hnsv, subsetVal_str] at hrv
      exact (Option.some.inj hrv).symm
    · rw [hnsv, subsetVal_int] at hrv
      exact (Option.some.inj hrv).symm
    · rw [hnsv, subsetVal_bool] at hrv
      exact (Option.some.inj hrv).symm
    · rw [hnsv] at hsc; simp [isScalar] at hsc
    · rw [hnsv] at hsc; simp [isScalar] at hsc
    · rw [hnsv] at hsc; simp [isScalar] at hsc
  · intro hsc hnn hcn
    have hav : isNull (lookup l "apiVersion") = false := (isNull_false_iff _).mpr hnn
    have hcav : isNull (lookup c "apiVersion") = false := (isNull_false_iff _).mpr hcn
    have hcond : (!isNull (lookup l "apiVersion") && !isNull (lookup c "apiVersion")) = true := by
      rw [hav, hcav]
      rfl
    obtain ⟨hpl, hpc⟩ := lookup_prep_api c hcond
    obtain ⟨_, hrv⟩ := subsetLoop_lookup hav h hpc
    rw [hpl] at hrv
    rcases hnsv : lookup l "apiVersion" with _ | s | n2 | b2 | a | ls | vs
    · exact absurd hnsv hnn
    · rw [hnsv, subsetVal_str] at hrv
      exact (Option.some.inj hrv).symm
    · rw [hnsv, subsetVal_int] at hrv
      exact (Option.some.inj hrv).symm
    · rw [hnsv, subsetVal_bool] at hrv
      exact (Option.some.inj hrv).symm
    · rw [hnsv] at hsc; simp [isScalar] at hsc
    · rw [hnsv] at hsc; simp [isScalar] at hsc
    · rw [hnsv] at hsc; simp [isScalar] at hsc
  · intro hcf
    have hcl : lookup c "apiVersion" = .null := lookup_of_not_contains hcf
    have hcond : (!isNull (lookup l "apiVersion") && !isNull (lookup c "apiVersion")) = false := by
      rw [hcl]
      simp [isNull]
    have hpf : containsKey (prep l c) "apiVersion" = false := by
      rw [prep_api_neg c hcond, containsKey_prepNs_other l c ns_ne_api, hcf]
    exact subsetLoop_contains_false h hpf

theorem claim04_witness :
    subset [("namespace", GoVal.str "ns"), ("apiVersion", GoVal.str "v1")]
        [("apiVersion", GoVal.str "v9"), ("other", GoVal.int 1)] =
      some [("apiVersion", GoVal.str "v1"), ("namespace", GoVal.str "ns")] ∧
    lookup [("apiVersion", GoVal.str "v1"), ("namespace", GoVal.str "ns")] "namespace" =
      lookup [("namespace", GoVal.str "ns"), ("apiVersion", GoVal.str "v1")] "namespace" := by
  have h1 : subset [("namespace", GoVal.str "ns"), ("apiVersion", GoVal.str "v1")]
      [("apiVersion", GoVal.str "v9"), ("other", GoVal.int 1)] =
      some [("apiVersion", GoVal.str "v1"), ("namespace", GoVal.str "ns")] := by
    simp [subset, prep, prepNs, subsetLoop, subsetVal, lookup, setKey, isNull]
  refine ⟨h1, ?_⟩
  exact (claim04_injection_amended _ _ _ h1).1 (by simp [lookup, isScalar]) (by simp [lookup])

/-- C5 counterexample: the element-wise behaviour of the heterogeneous-list
branch does not apply to the "namespace" key — the injection first replaces
the whole live list by desired's list, so a live element beyond the desired
list's length is not left unchanged there, refuting the claim as stated. -/
theorem claim05_counterexample :
    subset [("namespace", GoVal.arr [])] [("namespace", GoVal.arr [GoVal.int 5])] =
      some [("namespace", GoVal.arr [])] ∧
    GoVal.arr ([] : List GoVal) ≠ GoVal.arr [GoVal.int 5] :=
  ⟨by simp [subset, prep, prepNs, subsetLoop, subsetVal, subsetArr, lookup, setKey, isNull],
    by simp⟩

/-- C5 (amended): for every key other than "namespace" and "apiVersion"
where both sides hold heterogeneous lists, `subset` recurses element-wise by
index only below the desired list's length, leaves the tail of the live list
unchanged without truncation, and leaves elements that are not nested maps on
either side unchanged at their index. -/
theorem claim05_arr_branch_amended (l c r : GoMap) (k : String) (as2 bs : List GoVal)
    (hk1 : k ≠ "namespace") (hk2 : k ≠ "apiVersion")
    (hlk : lookup l k = .arr as2) (hck : lookup c k = .arr bs)
    (h : subset l c = some r) :
    ∃ bs', lookup r k = .arr bs' ∧ subsetArr as2 bs = some bs' ∧
      bs'.length = bs.length ∧
      (∀ i : Nat, as2.length ≤ i → bs'[i]? = bs[i]?) ∧
      (∀ i : Nat, ¬(∃ x y, as2[i]? = some (GoVal.obj x) ∧ bs[i]? = some (GoVal.obj y)) →
        bs'[i]? = bs[i]?) ∧
      (∀ (i : Nat) (x y : GoMap), as2[i]? = some (GoVal.obj x) →
        bs[i]? = some (GoVal.obj y) →
        ∃ m, subsetLoop x (prep x y) = some m ∧ bs'[i]? = some (GoVal.obj m)) := by
  unfold subset at h
  have hav : isNull (lookup l k) = false := by rw [hlk]; rfl
  have hcc : containsKey c k = true := contains_of_lookup_ne (by rw [hck]; simp)
  have hpc : containsKey (prep l c) k = true := by
    rw [containsKey_prep_other l c hk1 hk2]
    exact hcc
  have hpl : lookup (prep l c) k = lookup c k := lookup_prep_other l c hk1 hk2
  obtain ⟨_, hrv⟩ := subsetLoop_lookup hav h hpc
  rw [hpl, hck, subsetVal_arr_arr bs hlk] at hrv
  rcases hs : subsetArr as2 bs with _ | bs' <;> rw [hs] at hrv
  · cases hrv
  · have hlr : lookup r k = .arr bs' := (Option.some.inj hrv).symm
    refine ⟨bs', hlr, rfl, subsetArr_length hs, ?_, subsetArr_unchanged hs,
      subsetArr_reduces hs⟩
    intro i hi
    apply subsetArr_unchanged hs i
    rintro ⟨x, y, hx, -⟩
    rw [List.getElem?_eq_none hi] at hx
    cases hx

theorem claim05_witness :
    subset [("lst", GoVal.arr [GoVal.obj [("a", GoVal.int 1)], GoVal.int 7])]
        [("lst", GoVal.arr [GoVal.obj [("a", GoVal.int 2), ("b", GoVal.int 3)],
          GoVal.int 9, GoVal.str "tl"])] =
      some [("lst", GoVal.arr [GoVal.obj [("a", GoVal.int 2)], GoVal.int 9,
        GoVal.str "tl"])] ∧
    (∃ bs', lookup [("lst", GoVal.arr [GoVal.obj [("a", GoVal.int 2)], GoVal.int 9,
        GoVal.str "tl"])] "lst" = GoVal.arr bs' ∧ bs'.length = 3) := by
  have h1 : subset [("lst", GoVal.arr [GoVal.obj [("a", GoVal.int 1)], GoVal.int 7])]
      [("lst", GoVal.arr [GoVal.obj [("a", GoVal.int 2), ("b", GoVal.int 3)],
        GoVal.int 9, GoVal.str "tl"])] =
      some [("lst", GoVal.arr [GoVal.obj [("a", GoVal.int 2)], GoVal.int 9,
        GoVal.str "tl"])] := by
    simp [subset, prep, prepNs, subsetLoop, subsetVal, subsetArr, lookup, setKey, isNull]
  refine ⟨h1, ?_⟩
  obtain ⟨bs', hl, hs, hlen, -⟩ := claim05_arr_branch_amended _ _ _ "lst"
    [GoVal.obj [("a", GoVal.int 1)], GoVal.int 7]
    [GoVal.obj [("a", GoVal.int 2), ("b", GoVal.int 3)], GoVal.int 9, GoVal.str "tl"]
    (by decide) (by decide) (by simp [lookup]) (by simp [lookup]) h1
  exact ⟨bs', hl, by rw [hlen]; rfl⟩

/-- C6: under the precondition that wherever the reduction pairs a desired
`[]map[string]interface` list with a live one the desired list is at least as
long (recursively at every nesting level), `subset` never indexes the desired
list out of range: the `none` (panic) branch of the embedding is
unreachable. -/
theorem claim06_no_out_of_range (l c : GoMap) (h : wfSubset l c = true) :
    ∃ r, subset l c = some r := by
  unfold wfSubset at h
  unfold subset
  have hp := dEnts_prep_le l c
  exact (noPanicMain (max (dEnts l) (dEnts c))).2.2.2 l (prep l c) (by omega) h

theorem claim06_witness :
    wfSubset [("k", GoVal.mapList [[("x", GoVal.int 1)], [("y", GoVal.int 2)]])]
        [("k", GoVal.mapList [[("x", GoVal.int 3)]])] = true ∧
    (∃ r, subset [("k", GoVal.mapList [[("x", GoVal.int 1)], [("y", GoVal.int 2)]])]
        [("k", GoVal.mapList [[("x", GoVal.int 3)]])] = some r) :=
  ⟨by simp [wfSubset, wfLoop, wfVal, wfMaps, prep, prepNs, lookup, setKey, isNull],
    claim06_no_out_of_range _ _
      (by simp [wfSubset, wfLoop, wfVal, wfMaps, prep, prepNs, lookup, setKey, isNull])⟩

/-- C7: when the cluster accessor reports not-found, the worker treats the
live state as the empty tree and still returns a difference record rather
than an error; and whenever the serialized reduced live tree equals the
canonical empty-object text, it is normalized to the empty string in the
record. -/
theorem claim07_not_found_empty_live (serialize : GoMap → String)
    (diffName : GoMap → String) (m : GoMap) :
    (∀ red, subset m [] = some red →
      subsetDiff serialize diffName .notFound m =
        some (.ok { name := diffName m,
                    local_ := if serialize red = "\x7b\x7d\n" then "" else serialize red,
                    cluster := serialize m })) ∧
    (∀ res red, subset m res = some red → serialize red = "\x7b\x7d\n" →
      subsetDiff serialize diffName (.ok res) m =
        some (.ok { name := diffName m, local_ := "", cluster := serialize m })) := by
  constructor
  · intro red hred
    simp [subsetDiff, subsetDiffRun, hred]
  · intro res red hred hser
    simp [subsetDiff, subsetDiffRun, hred, hser]

theorem claim07_witness :
    subset [("a", GoVal.int 1)] [] = some [] ∧
    subsetDiff (fun _ => "\x7b\x7d\n") (fun _ => "nm") GetResult.notFound
        [("a", GoVal.int 1)] =
      some (.ok { name := "nm", local_ := "", cluster := "\x7b\x7d\n" }) := by
  have h1 : subset [("a", GoVal.int 1)] [] = some [] := by
    simp [subset, prep, prepNs, subsetLoop, subsetVal, lookup, setKey, isNull]
  refine ⟨h1, ?_⟩
  have h2 := (claim07_not_found_empty_live (fun _ => "\x7b\x7d\n") (fun _ => "nm")
    [("a", GoVal.int 1)]).1 [] h1
  simpa using h2

/-- C8: if at least one per-manifest worker reports an error, the function
returned by `SubsetDiffer` returns a nil diff together with a non-nil wrapped
error, discarding all collected records. -/
theorem claim08_error_aborts (diffStr : String → String → String → Except String String)
    (arrivals : List (Except String difference)) (e : String)
    (he : Except.error e ∈ arrivals) :
    ∃ e', computeDiff diffStr arrivals = .error ("calculating subset: " ++ e') := by
  obtain ⟨e', he'⟩ := gatherLoop_snd_some arrivals [] none (Or.inr ⟨e, he⟩)
  refine ⟨e', ?_⟩
  unfold computeDiff
  rcases hg : gatherLoop arrivals [] none with ⟨docs, lastErr⟩
  rw [hg] at he'
  dsimp only at he' ⊢
  rw [he']

theorem claim08_witness :
    Except.error "boom" ∈ ([Except.error "boom"] : List (Except String difference)) ∧
    (∃ e', computeDiff (fun _ _ _ => .ok "") [Except.error "boom"] =
      .error ("calculating subset: " ++ e')) :=
  ⟨by simp, claim08_error_aborts _ _ "boom" (by simp)⟩

/-- C9 counterexample: when the serialized reduced live tree is the canonical
empty-object text, the record's `local_` field holds the empty string, not
the serialized text of the reduced live object, refuting the claim as
stated. -/
theorem claim09_counterexample :
    subsetDiff (fun _ => "\x7b\x7d\n") (fun _ => "nm") GetResult.notFound [] =
      some (.ok { name := "nm", local_ := "", cluster := "\x7b\x7d\n" }) ∧
    ("" : String) ≠ "\x7b\x7d\n" := by
  constructor
  · simp [subsetDiff, subsetDiffRun, subset, prep, prepNs, subsetLoop, lookup, isNull]
  · decide

/-- C9 (amended): for every manifest whose fetch succeeds or is not-found,
the worker's record carries the manifest's label as its name, the serialized
reduced live text — after empty-object normalization — in its `local_` field,
and the serialized desired text in its `cluster` field. -/
theorem claim09_record_fields_amended (serialize : GoMap → String)
    (diffName : GoMap → String) (m : GoMap) :
    (∀ res red, subset m res = some red →
      subsetDiff serialize diffName (.ok res) m =
        some (.ok { name := diffName m,
                    local_ := if serialize red = "\x7b\x7d\n" then "" else serialize red,
                    cluster := serialize m })) ∧
    (∀ red, subset m [] = some red →
      subsetDiff serialize diffName .notFound m =
        some (.ok { name := diffName m,
                    local_ := if serialize red = "\x7b\x7d\n" then "" else serialize red,
                    cluster := serialize m })) := by
  constructor
  · intro res red hred
    simp [subsetDiff, subsetDiffRun, hred]
  · intro red hred
    simp [subsetDiff, subsetDiffRun, hred]

theorem claim09_witness :
    subset [("a", GoVal.int 1)] [("a", GoVal.int 2)] = some [("a", GoVal.int 2)] ∧
    subsetDiff (fun _ => "S") (fun _ => "nm") (GetResult.ok [("a", GoVal.int 2)])
        [("a", GoVal.int 1)] =
      some (.ok { name := "nm", local_ := "S", cluster := "S" }) := by
  have h1 : subset [("a", GoVal.int 1)] [("a", GoVal.int 2)] =
      some [("a", GoVal.int 2)] := by
    simp [subset, prep, prepNs, subsetLoop, subsetVal, lookup, setKey, isNull]
  refine ⟨h1, ?_⟩
  have h2 := (claim09_record_fields_amended (fun _ => "S") (fun _ => "nm")
    [("a", GoVal.int 1)]).1 [("a", GoVal.int 2)] [("a", GoVal.int 2)] h1
  simpa using h2

/-- C10: a key mapped to an explicit null in the desired tree is deleted from
the result exactly as if the key were absent from the desired tree. -/
theorem claim10_null_equals_absent (l c : GoMap) (k : String)
    (h : lookup l k = .null) :
    (∀ r, subset l c = some r → containsKey r k = false) ∧
    subset (eraseKey l k) c = subset l c := by
  constructor
  · intro r hr
    unfold subset at hr
    exact subsetLoop_contains_null h hr
  · apply subset_ext
    intro k'
    by_cases hk : k' = k
    · subst hk
      rw [lookup_eraseKey_self, h]
    · exact lookup_eraseKey_other l (Ne.symm hk)

theorem claim10_witness :
    lookup [("a", GoVal.null), ("b", GoVal.int 1)] "a" = GoVal.null ∧
    subset (eraseKey [("a", GoVal.null), ("b", GoVal.int 1)] "a")
        [("a", GoVal.int 5), ("b", GoVal.int 2)] =
      subset [("a", GoVal.null), ("b", GoVal.int 1)]
        [("a", GoVal.int 5), ("b", GoVal.int 2)] :=
  ⟨by simp [lookup],
    (claim10_null_equals_absent [("a", GoVal.null), ("b", GoVal.int 1)]
      [("a", GoVal.int 5), ("b", GoVal.int 2)] "a" (by simp [lookup])).2⟩

end SubsetDiffGo
